import Mathlib

/-!
Shallow embedding of the ordering/reconciliation logic of
`src/pretix/control/views/item.py` (pretix control views for items,
categories and questions), together with theorems about the reordering
endpoints (`reorder_items`, `reorder_categories`, `reorder_questions`),
the single-step move helpers (`item_move`, `category_move`) and the
question display list (`QuestionList.get_context_data`).

Modelling conventions:
* Database rows become Lean structures; a "scope" (all categories of an
  event, all questions of an event, all items of an event) is a `List`
  of rows, in database order, with primary keys assumed distinct where
  a theorem needs it.
* Submitted ids are `List String` exactly as in the JSON request body;
  Python's `str.isdigit` / `int(...)` / `str(...)` are embedded as
  `pyIsDigit` / `strToNat` / `natToStr` (ASCII decimal digits; the
  views only ever receive ASCII ids from their own templates).
* `request.body` parsing is abstracted by `ReqBody`: the code wraps
  `json.loads(request.body)['ids']` in
  `except (JSONDecodeError, KeyError, ValueError)`, so the only facts
  that matter are "parsing failed" versus "an ids list was obtained".
* The handlers run under `@transaction.atomic`, and every validation
  failure (`Http404`) is raised before the first write; an uncaught
  `ValueError` (`list.index` miss) likewise rolls the transaction back.
  Hence each handler is a total function from the pre-state to a
  post-state, an audit-log list and a response.
-/

namespace ItemViews

/-- Python `str.isdigit()` for the ASCII decimal strings these views see:
nonempty and consisting of decimal digits only. -/
def pyIsDigit (s : String) : Bool :=
  !s.data.isEmpty && s.data.all Char.isDigit

/-- Decimal value of a digit list continuing an accumulator, the
evaluation order of Python `int(s)`. -/
def valAux (a : Nat) (l : List Char) : Nat :=
  l.foldl (fun a c => 10 * a + (c.toNat - 48)) a

/-- Python `int(s)` on a digit string (as Django's integer-field lookup
applies to each member of `id__in`). -/
def strToNat (s : String) : Nat :=
  valAux 0 s.data

/-- Digit characters of `n`, most significant first, fuel-driven so that
the definition is structural. -/
def natToStrAux : Nat → Nat → List Char → List Char
  | 0, _, acc => acc
  | fuel+1, n, acc =>
    if n / 10 = 0 then Nat.digitChar (n % 10) :: acc
    else natToStrAux fuel (n / 10) (Nat.digitChar (n % 10) :: acc)

/-- Python `str(n)` for a natural number: decimal, no leading zeros. -/
def natToStr (n : Nat) : String :=
  ⟨natToStrAux (n + 1) n []⟩

/-- Python `list.index` made total: index of the first occurrence of `s`
in `l`, `none` when absent (where Python raises `ValueError`). -/
def pyIndex (l : List String) (s : String) : Option Nat :=
  match l with
  | [] => none
  | x :: xs => if x = s then some 0 else (pyIndex xs s).map (· + 1)

/-! ## Data model

`Orderable` models a positioned row (an `ItemCategory` or a `Question`):
primary key plus zero-based `position`.  `Item` rows additionally carry
the owning category (`None` = uncategorized). -/

structure Orderable where
  pk : Nat
  position : Nat
deriving DecidableEq

structure Item where
  pk : Nat
  position : Nat
  category : Option Nat
deriving DecidableEq

/-- Outcome of one HTTP handler call. -/
inductive Resp where
  | ok
  | badRequest (msg : String)
  | notFound (msg : String)
  | serverError
deriving DecidableEq

/-- The parse outcome of `json.loads(request.body)['ids']`:
`malformed` covers invalid JSON (`JSONDecodeError`/`ValueError`),
`missingIds` covers a JSON object without the `ids` key (`KeyError`),
`withIds` carries the decoded list of id strings. -/
inductive ReqBody where
  | malformed
  | missingIds
  | withIds (ids : List String)
deriving DecidableEq

/-- The fixed diagnostic body returned for unparseable requests. -/
def expectedJson : String := "expected JSON: \x7bids:[]\x7d"

/-- `Http404` text for ids that do not resolve. -/
def invalidIdsMsg : String := "Some of the provided object ids are invalid."

/-- `Http404` text for an incomplete selection. -/
def notAllMsg : String := "Not all objects have been selected."

/-- Does some submitted id string resolve (via Django `id__in` after the
`isdigit` filter) to the row with primary key `pk`? -/
def matchesIds (ids : List String) (pk : Nat) : Bool :=
  ids.any (fun s => pyIsDigit s && strToNat s == pk)

/-- `list(queryset.filter(id__in=[i for i in ids if i.isdigit()]))`:
the rows of the scope matched by the submitted ids, in database order. -/
def resolveIn (db : List Orderable) (ids : List String) : List Orderable :=
  db.filter (fun c => matchesIds ids c.pk)

/-- The write-back loop shared by `reorder_categories` (lines 407-416)
and the persisted-question part of `reorder_questions` (lines 541-550):
for each row, `pos = ids.index(str(row.pk))` (`none` propagates the
uncaught `ValueError`, which aborts the whole transaction), and the row
is saved and a per-row audit record written only when `pos` differs
from the stored position.  Returns the new rows plus the pks logged, in
loop order. -/
def applyStrict (ids : List String) : List Orderable → Option (List Orderable × List Nat)
  | [] => some ([], [])
  | c :: rest =>
    match pyIndex ids (natToStr c.pk), applyStrict ids rest with
    | some pos, some (rest', logs) =>
      if pos = c.position then some (c :: rest', logs)
      else some ({ c with position := pos } :: rest', c.pk :: logs)
    | _, _ => none

/-- Result of a `reorder_categories` call: the event's categories after
the call, the pks for which an audit record was written, the response. -/
structure CatResult where
  db : List Orderable
  logs : List Nat
  resp : Resp
deriving DecidableEq

/-- `reorder_categories` (item.py lines 390-418).  `db` is the event's
category scope.  In the success branch the resolved list equals `db`
itself (both length checks passed and `resolveIn` is a filter of `db`),
so applying the loop to it yields the whole post-state. -/
def reorder_categories (db : List Orderable) (body : ReqBody) : CatResult :=
  match body with
  | .malformed => ⟨db, [], .badRequest expectedJson⟩
  | .missingIds => ⟨db, [], .badRequest expectedJson⟩
  | .withIds ids =>
    let input := resolveIn db ids
    if input.length ≠ ids.length then ⟨db, [], .notFound invalidIdsMsg⟩
    else if input.length ≠ db.length then ⟨db, [], .notFound notAllMsg⟩
    else
      match applyStrict ids input with
      | none => ⟨db, [], .serverError⟩
      | some (db', logs) => ⟨db', logs, .ok⟩

/-- The seven fixed system-question keys, in source order
(item.py line 553). -/
def systemKeys : List String :=
  ["attendee_name_parts", "attendee_email", "company", "street", "zipcode", "city", "country"]

/-- The `system_question_order` map built by `reorder_questions`
(lines 552-557): each key maps to its index in the submitted list, `-1`
when absent. -/
def systemOrderOf (ids : List String) : List (String × Int) :=
  systemKeys.map (fun s =>
    (s, match pyIndex ids s with
        | some i => (i : Int)
        | none => -1))

/-- Result of a `reorder_questions` call: persisted questions after the
call, per-question audit pks, the persisted `system_question_order`
settings write (`none` when the request failed before it), the number
of event-level audit records, and the response. -/
structure QuestResult where
  db : List Orderable
  logs : List Nat
  sqo : Option (List (String × Int))
  eventLogs : Nat
  resp : Resp
deriving DecidableEq

/-- `reorder_questions` (item.py lines 522-565).  Persisted questions
are reconciled strictly against the digit ids, but each one's new
position is its index in the **full** submitted list `ids` (line 542);
afterwards the system-question map is persisted wholesale and exactly
one event-level audit record is written. -/
def reorder_questions (db : List Orderable) (body : ReqBody) : QuestResult :=
  match body with
  | .malformed => ⟨db, [], none, 0, .badRequest expectedJson⟩
  | .missingIds => ⟨db, [], none, 0, .badRequest expectedJson⟩
  | .withIds ids =>
    let cqids := ids.filter pyIsDigit
    let input := resolveIn db cqids
    if input.length ≠ cqids.length then ⟨db, [], none, 0, .notFound invalidIdsMsg⟩
    else if input.length ≠ db.length then ⟨db, [], none, 0, .notFound notAllMsg⟩
    else
      match applyStrict ids input with
      | none => ⟨db, [], none, 0, .serverError⟩
      | some (db', logs) => ⟨db', logs, some (systemOrderOf ids), 1, .ok⟩

/-- What `reorder_items` places under the `'position'` key of the audit
payload.  The source (line 205) writes `'position': i` where `i` is the
**Item object** bound by the loop, not the computed `pos`; `itemRef`
records that object by its pk, `intVal` is what an integer would be. -/
inductive LogVal where
  | itemRef (pk : Nat)
  | intVal (n : Nat)
deriving DecidableEq

/-- One audit record of `reorder_items`: acted-on pk plus the payload
(`'position'` and `'category'` values, lines 203-208). -/
structure ItemLog where
  pk : Nat
  position : LogVal
  category : Option Nat
deriving DecidableEq

structure ItemsResult where
  db : List Item
  logs : List ItemLog
  resp : Resp
deriving DecidableEq

/-- The write-back loop of `reorder_items` (lines 197-208), walking the
whole item scope in database order and touching exactly the resolved
rows: a resolved item is saved (both `position` and `category_id`) and
logged iff its computed position differs or the target category
differs; unresolved items pass through untouched. -/
def applyItems (ids : List String) (target : Option Nat) :
    List Item → Option (List Item × List ItemLog)
  | [] => some ([], [])
  | i :: rest =>
    if matchesIds ids i.pk then
      match pyIndex ids (natToStr i.pk), applyItems ids target rest with
      | some pos, some (rest', logs) =>
        if pos ≠ i.position ∨ target ≠ i.category then
          some ({ i with position := pos, category := target } :: rest',
                ⟨i.pk, .itemRef i.pk, target⟩ :: logs)
        else some (i :: rest', logs)
      | _, _ => none
    else
      match applyItems ids target rest with
      | some (rest', logs) => some (i :: rest', logs)
      | none => none

/-- `reorder_items` (item.py lines 178-210).  `db` is the whole item
scope of the event, `cats` the pks of the event's categories and
`category` the URL parameter (0 encodes the "no category" bucket, as
`int(category)` being falsy).  A nonzero `category` that is not an
existing category raises `ItemCategory.DoesNotExist`, uncaught, hence
a server error with rollback. -/
def reorder_items (db : List Item) (cats : List Nat) (category : Nat)
    (body : ReqBody) : ItemsResult :=
  match body with
  | .malformed => ⟨db, [], .badRequest expectedJson⟩
  | .missingIds => ⟨db, [], .badRequest expectedJson⟩
  | .withIds ids =>
    let input := db.filter (fun i => matchesIds ids i.pk)
    if input.length ≠ ids.length then ⟨db, [], .notFound invalidIdsMsg⟩
    else if category ≠ 0 ∧ category ∉ cats then ⟨db, [], .serverError⟩
    else
      let target : Option Nat := if category = 0 then none else some category
      match applyItems ids target db with
      | none => ⟨db, [], .serverError⟩
      | some (db', logs) => ⟨db', logs, .ok⟩

/-! ## Stable sorting

`list.sort(key=...)` / `order_by("position")` are modelled by a stable
insertion sort: elements are taken left to right, each inserted after
every already-placed element with a key less than or equal to its own.
Any stable sort computes the same list, so this embeds both Python's
Timsort and the database ordering (ties kept in database order). -/

def insByKey {α β : Type} [LinearOrder β] (key : α → β) (a : α) : List α → List α
  | [] => [a]
  | y :: l => if key y ≤ key a then y :: insByKey key a l else a :: y :: l

def sortAux {α β : Type} [LinearOrder β] (key : α → β) : List α → List α → List α
  | acc, [] => acc
  | acc, a :: l => sortAux key (insByKey key a acc) l

def sortByKey {α β : Type} [LinearOrder β] (key : α → β) (l : List α) : List α :=
  sortAux key [] l

/-- Swap the entries at positions `i` and `j` (used for the adjacent
swap in the move helpers); out-of-range indices leave the list as is. -/
def swapAdj {α : Type} (l : List α) (i j : Nat) : List α :=
  match l.get? i, l.get? j with
  | some a, some b => (l.set i b).set j a
  | _, _ => l

/-- The renumbering loop shared by `item_move` (lines 148-156) and
`category_move` (lines 360-368): entry `k` of the list gets position
`k`; a row is saved and logged only when its stored position differs.
Returns the rows after the loop and the pks logged, in loop order. -/
def renumberBy {α : Type} (getPos : α → Nat) (setPos : α → Nat → α) (getPk : α → Nat) :
    Nat → List α → List α × List Nat
  | _, [] => ([], [])
  | i, e :: rest =>
    let r := renumberBy getPos setPos getPk (i + 1) rest
    if getPos e = i then (e :: r.1, r.2)
    else (setPos e i :: r.1, getPk e :: r.2)

/-- The body shared verbatim by `item_move` (lines 140-156) and
`category_move` (lines 352-368), generic over the row type: order the
scope by position, locate the moved row, swap it with its neighbour
unless at the boundary, then renumber every row to its list index,
saving and logging only rows whose position actually changed. -/
def swapArm {α : Type} (items : List α) (index : Nat) (up : Bool) : List α :=
  if index ≠ 0 ∧ up then swapAdj items (index - 1) index
  else if index ≠ items.length - 1 ∧ up = false then swapAdj items index (index + 1)
  else items

def moveCore {α : Type} (getPos : α → Nat) (setPos : α → Nat → α) (getPk : α → Nat)
    (scope : List α) (pk : Nat) (up : Bool) : List α × List Nat :=
  renumberBy getPos setPos getPk 0
    (swapArm (sortByKey getPos scope) ((sortByKey getPos scope).findIdx (fun e => getPk e == pk)) up)

/-- `category_move` (item.py lines 340-369).  `db` is the event's
category scope; `none` models the `Http404` for an unknown pk.  On
success: the scope rows after the call and the pks logged. -/
def category_move (db : List Orderable) (pk : Nat) (up : Bool) :
    Option (List Orderable × List Nat) :=
  if db.any (fun c => c.pk == pk) then
    some (moveCore Orderable.position (fun c p => { c with position := p })
      Orderable.pk db pk up)
  else none

/-- `item_move` (item.py lines 128-157).  `db` is the event's whole
item set; the function reorders only the moved item's category scope
(`filter(category=item.category)`), so the returned rows are that
scope's rows after the call (items of other categories are never
touched by the loop). -/
def item_move (db : List Item) (pk : Nat) (up : Bool) :
    Option (List Item × List Nat) :=
  match db.find? (fun i => i.pk == pk) with
  | none => none
  | some it =>
    some (moveCore Item.position (fun i p => { i with position := p })
      Item.pk (db.filter (fun i => i.category == it.category)) pk up)

/-! ## The question display list (`QuestionList.get_context_data`) -/

/-- The event settings consulted by `QuestionList.get_context_data`
(item.py lines 434-519): the asked/required flags for the system
fields and the stored `system_question_order` map (an association
list, `.get(key, 0)` defaulting to 0). -/
structure EventSettings where
  attendee_names_asked : Bool
  attendee_names_required : Bool
  attendee_emails_asked : Bool
  attendee_emails_required : Bool
  attendee_company_asked : Bool
  attendee_company_required : Bool
  attendee_addresses_asked : Bool
  attendee_addresses_required : Bool
  system_question_order : List (String × Int)
deriving DecidableEq

/-- `event.settings.system_question_order.get(k, 0)`. -/
def sqoGet (s : EventSettings) (k : String) : Int :=
  match s.system_question_order.lookup k with
  | some v => v
  | none => 0

/-- An entry of the displayed question list: either a `FakeQuestion`
namedtuple for a system field (string id, position from the settings
map, required flag) or a persisted `Question` row.  The display label
is omitted: it never influences ordering. -/
inductive QEntry where
  | fake (id : String) (position : Int) (required : Bool)
  | real (q : Orderable)
deriving DecidableEq

/-- The shared sort key `lambda q: q.position` (line 517). -/
def QEntry.position : QEntry → Int
  | .fake _ p _ => p
  | .real q => (q.position : Int)

/-- The virtual entries appended by `get_context_data`, in source
order: one per enabled flag, four street/zipcode/city/country entries
for the single addresses flag. -/
def fakeQuestions (s : EventSettings) : List QEntry :=
  (if s.attendee_names_asked then
    [QEntry.fake "attendee_name_parts" (sqoGet s "attendee_name_parts")
      s.attendee_names_required] else []) ++
  (if s.attendee_emails_asked then
    [QEntry.fake "attendee_email" (sqoGet s "attendee_email")
      s.attendee_emails_required] else []) ++
  (if s.attendee_company_asked then
    [QEntry.fake "company" (sqoGet s "company")
      s.attendee_company_required] else []) ++
  (if s.attendee_addresses_asked then
    [QEntry.fake "street" (sqoGet s "street") s.attendee_addresses_required,
     QEntry.fake "zipcode" (sqoGet s "zipcode") s.attendee_addresses_required,
     QEntry.fake "city" (sqoGet s "city") s.attendee_addresses_required,
     QEntry.fake "country" (sqoGet s "country") s.attendee_addresses_required]
   else [])

/-- `QuestionList.get_context_data` (lines 434-519): virtual entries
followed by the persisted questions, stably sorted by position. -/
def get_context_data (s : EventSettings) (qs : List Orderable) : List QEntry :=
  sortByKey QEntry.position (fakeQuestions s ++ qs.map QEntry.real)

/-! ## Derived notions used by the theorems

These name quantities the handlers compute implicitly: an entity's new
position, whether it moves, its updated row, the audit payload. -/

/-- The position `ids.index(str(row.pk))` computes for a row (default
irrelevant: only used where the index exists). -/
def newPos (ids : List String) (c : Orderable) : Nat :=
  (pyIndex ids (natToStr c.pk)).getD 0

/-- The row after the strict loop body. -/
def updPos (ids : List String) (c : Orderable) : Orderable :=
  { c with position := newPos ids c }

/-- Same as `newPos` for item rows. -/
def newPosI (ids : List String) (i : Item) : Nat :=
  (pyIndex ids (natToStr i.pk)).getD 0

/-- The `reorder_items` change test: position or category differs. -/
def itemMoved (ids : List String) (target : Option Nat) (i : Item) : Bool :=
  (newPosI ids i != i.position) || (target != i.category)

/-- The item row after the relaxed loop body: both fields written when
the row moved, untouched otherwise. -/
def updItem (ids : List String) (target : Option Nat) (i : Item) : Item :=
  if matchesIds ids i.pk && itemMoved ids target i then
    { i with position := newPosI ids i, category := target }
  else i

/-- The audit record `reorder_items` writes for a moved item. -/
def itemLogOf (target : Option Nat) (i : Item) : ItemLog :=
  ⟨i.pk, .itemRef i.pk, target⟩

/-- Does the single id string `s` resolve to some row of the scope? -/
def resolvesId (db : List Orderable) (s : String) : Bool :=
  pyIsDigit s && db.any (fun c => strToNat s == c.pk)

/-- The per-key "asked" flag consulted by `get_context_data`
(lines 438, 450, 462, 474). -/
def askedFlag (s : EventSettings) (k : String) : Bool :=
  if k = "attendee_name_parts" then s.attendee_names_asked
  else if k = "attendee_email" then s.attendee_emails_asked
  else if k = "company" then s.attendee_company_asked
  else if k = "street" ∨ k = "zipcode" ∨ k = "city" ∨ k = "country" then
    s.attendee_addresses_asked
  else false

/-- The per-key "required" flag passed to the virtual entry. -/
def requiredFlag (s : EventSettings) (k : String) : Bool :=
  if k = "attendee_name_parts" then s.attendee_names_required
  else if k = "attendee_email" then s.attendee_emails_required
  else if k = "company" then s.attendee_company_required
  else if k = "street" ∨ k = "zipcode" ∨ k = "city" ∨ k = "country" then
    s.attendee_addresses_required
  else false

/-- The virtual entry `get_context_data` builds for key `k` when its
flag is enabled. -/
def sysEntry (s : EventSettings) (k : String) : QEntry :=
  QEntry.fake k (sqoGet s k) (requiredFlag s k)

/-! ## Lemma layer -/

theorem digitChar_toNat {d : Nat} (h : d < 10) : (Nat.digitChar d).toNat = 48 + d := by
  interval_cases d <;> rfl

theorem digitChar_isDigit {d : Nat} (h : d < 10) : (Nat.digitChar d).isDigit = true := by
  interval_cases d <;> rfl

theorem natToStrAux_append (fuel n : Nat) (acc : List Char) :
    natToStrAux fuel n acc = natToStrAux fuel n [] ++ acc := by
  induction fuel generalizing n acc with
  | zero => simp [natToStrAux]
  | succ fuel ih =>
    simp only [natToStrAux]
    by_cases h : n / 10 = 0
    · simp [h]
    · simp only [h, if_false]
      rw [ih (n / 10) (Nat.digitChar (n % 10) :: acc), ih (n / 10) [Nat.digitChar (n % 10)]]
      simp

theorem valAux_append (a : Nat) (l l' : List Char) :
    valAux a (l ++ l') = valAux (valAux a l) l' := by
  simp [valAux, List.foldl_append]

theorem valAux_natToStrAux (fuel n : Nat) (hfuel : n < fuel) :
    valAux 0 (natToStrAux fuel n []) = n := by
  induction fuel generalizing n with
  | zero => omega
  | succ fuel ih =>
    simp only [natToStrAux]
    by_cases h : n / 10 = 0
    · have hn : n < 10 := by omega
      have hmod : n % 10 = n := Nat.mod_eq_of_lt hn
      have hchar := digitChar_toNat hn
      simp [h, valAux, hmod, hchar]
    · simp only [h, if_false]
      rw [natToStrAux_append, valAux_append]
      have hlt : n / 10 < fuel := by
        have h1 : 0 < n := by
          rcases Nat.eq_zero_or_pos n with h0 | h0
          · exact absurd (by simp [h0]) h
          · exact h0
        have := Nat.div_lt_self h1 (by norm_num : 1 < 10)
        omega
      rw [ih (n / 10) hlt]
      have : (Nat.digitChar (n % 10)).toNat = 48 + n % 10 :=
        digitChar_toNat (Nat.mod_lt _ (by norm_num))
      simp [valAux, this]
      omega

/-- `int(str(n)) = n`: decoding inverts encoding. -/
theorem strToNat_natToStr (n : Nat) : strToNat (natToStr n) = n := by
  simpa [strToNat, natToStr] using valAux_natToStrAux (n + 1) n (Nat.lt_succ_self n)

theorem natToStr_injective : Function.Injective natToStr := by
  intro a b h
  have := strToNat_natToStr a
  rw [h, strToNat_natToStr] at this
  omega

theorem natToStrAux_ne_nil (fuel n : Nat) (acc : List Char) (h : acc ≠ []) :
    natToStrAux fuel n acc ≠ [] := by
  induction fuel generalizing n acc with
  | zero => simpa [natToStrAux]
  | succ fuel ih =>
    simp only [natToStrAux]
    by_cases h10 : n / 10 = 0
    · simp [h10]
    · simp only [h10, if_false]
      exact ih (n / 10) _ (by simp)

theorem natToStrAux_all_digits (fuel n : Nat) (acc : List Char)
    (h : acc.all Char.isDigit = true) :
    (natToStrAux fuel n acc).all Char.isDigit = true := by
  induction fuel generalizing n acc with
  | zero => simpa [natToStrAux] using h
  | succ fuel ih =>
    simp only [natToStrAux]
    by_cases h10 : n / 10 = 0
    · simp only [h10, if_true]
      simp only [List.all_cons, Bool.and_eq_true]
      exact ⟨digitChar_isDigit (Nat.mod_lt _ (by norm_num)), h⟩
    · simp only [h10, if_false]
      refine ih (n / 10) _ ?_
      simp only [List.all_cons, Bool.and_eq_true]
      exact ⟨digitChar_isDigit (Nat.mod_lt _ (by norm_num)), h⟩

/-- `str(n).isdigit()` is true. -/
theorem pyIsDigit_natToStr (n : Nat) : pyIsDigit (natToStr n) = true := by
  have hne : natToStrAux (n + 1) n [] ≠ [] := by
    simp only [natToStrAux]
    by_cases h10 : n / 10 = 0
    · simp [h10]
    · simp only [h10, if_false]
      exact natToStrAux_ne_nil _ _ _ (by simp)
  have hdig : (natToStrAux (n + 1) n []).all Char.isDigit = true :=
    natToStrAux_all_digits _ _ _ (by simp)
  simp [pyIsDigit, natToStr, hne, hdig, List.isEmpty_iff]

theorem pyIndex_isSome_iff {l : List String} {s : String} :
    (pyIndex l s).isSome = true ↔ s ∈ l := by
  induction l with
  | nil => simp [pyIndex]
  | cons x xs ih =>
    have hmap : ∀ (o : Option Nat), (o.map (· + 1)).isSome = o.isSome := by
      intro o
      cases o <;> rfl
    by_cases h : x = s
    · simp [pyIndex, h]
    · simp only [pyIndex, h, if_false, hmap, List.mem_cons]
      rw [ih]
      constructor
      · exact Or.inr
      · rintro (h' | h')
        · exact absurd h'.symm h
        · exact h'

theorem pyIndex_get? {l : List String} {s : String} {i : Nat}
    (h : pyIndex l s = some i) : l.get? i = some s := by
  induction l generalizing i with
  | nil => simp [pyIndex] at h
  | cons x xs ih =>
    simp only [pyIndex] at h
    by_cases hx : x = s
    · simp only [hx, if_true, Option.some.injEq] at h
      subst h
      simp [hx]
    · simp only [hx, if_false] at h
      cases hrec : pyIndex xs s with
      | none => simp [hrec] at h
      | some j =>
        rw [hrec] at h
        have hji : j + 1 = i := by simpa using h
        rw [← hji]
        simpa using ih hrec

theorem pyIndex_lt_length {l : List String} {s : String} {i : Nat}
    (h : pyIndex l s = some i) : i < l.length := by
  have := pyIndex_get? h
  exact List.get?_eq_some.mp this |>.1

theorem pyIndex_inj {l : List String} {s t : String} {i : Nat}
    (hs : pyIndex l s = some i) (ht : pyIndex l t = some i) : s = t := by
  have h1 := pyIndex_get? hs
  have h2 := pyIndex_get? ht
  rw [h1] at h2
  exact (Option.some.injEq _ _ ▸ h2).symm ▸ rfl

/-! ### The strict write-back loop -/

theorem applyStrict_some (ids : List String) : ∀ (db : List Orderable),
    (∀ c ∈ db, natToStr c.pk ∈ ids) →
    applyStrict ids db = some (db.map (updPos ids),
      (db.filter (fun c => newPos ids c != c.position)).map Orderable.pk)
  | [], _ => rfl
  | c :: rest, h => by
    have hc : natToStr c.pk ∈ ids := h c (List.mem_cons_self _ _)
    obtain ⟨pos, hpos⟩ := Option.isSome_iff_exists.mp (pyIndex_isSome_iff.mpr hc)
    have hrest := applyStrict_some ids rest (fun x hx => h x (List.mem_cons_of_mem _ hx))
    have hnp : newPos ids c = pos := by simp [newPos, hpos]
    by_cases heq : pos = c.position
    · have hb : (newPos ids c != c.position) = false := by simp [hnp, heq]
      have hu : updPos ids c = c := by
        simp only [updPos, hnp, heq]
      simp [applyStrict, hpos, hrest, heq, List.filter_cons, hb, hu]
    · have hb : (newPos ids c != c.position) = true := by simp [hnp, heq]
      have hu : updPos ids c = { c with position := pos } := by
        simp [updPos, hnp]
      simp [applyStrict, hpos, hrest, heq, List.filter_cons, hb, hu]

theorem applyStrict_mem {ids : List String} : ∀ {db : List Orderable}
    {x : List Orderable × List Nat},
    applyStrict ids db = some x → ∀ c ∈ db, natToStr c.pk ∈ ids := by
  intro db
  induction db with
  | nil => simp
  | cons c rest ih =>
    intro x hx d hd
    simp only [applyStrict] at hx
    cases h1 : pyIndex ids (natToStr c.pk) with
    | none => rw [h1] at hx; exact absurd hx (by simp)
    | some pos =>
      rw [h1] at hx
      cases h2 : applyStrict ids rest with
      | none => rw [h2] at hx; exact absurd hx (by simp)
      | some y =>
        rcases List.mem_cons.mp hd with rfl | hd'
        · exact pyIndex_isSome_iff.mp (by simp [h1])
        · exact ih h2 d hd'

theorem resolveIn_eq_self {db : List Orderable} {ids : List String}
    (h : (resolveIn db ids).length = db.length) : resolveIn db ids = db :=
  List.Sublist.eq_of_length (List.filter_sublist db) h

/-- Success-path computation of `reorder_categories`. -/
theorem reorder_categories_of_valid {db : List Orderable} {ids : List String}
    (h1 : (resolveIn db ids).length = ids.length)
    (h2 : (resolveIn db ids).length = db.length)
    (hmem : ∀ c ∈ db, natToStr c.pk ∈ ids) :
    reorder_categories db (.withIds ids) =
      ⟨db.map (updPos ids),
       (db.filter (fun c => newPos ids c != c.position)).map Orderable.pk, .ok⟩ := by
  have hres : resolveIn db ids = db := resolveIn_eq_self h2
  have h3 : db.length = ids.length := by rw [← h2, h1]
  have hap := applyStrict_some ids db hmem
  simp [reorder_categories, h1, h2, hres, h3, hap]

/-- Inversion: a `.ok` response of `reorder_categories` pins down every
component and yields the validation facts. -/
theorem reorder_categories_ok {db : List Orderable} {ids : List String}
    (h : (reorder_categories db (.withIds ids)).resp = .ok) :
    db.length = ids.length ∧ (∀ c ∈ db, natToStr c.pk ∈ ids) ∧
    reorder_categories db (.withIds ids) =
      ⟨db.map (updPos ids),
       (db.filter (fun c => newPos ids c != c.position)).map Orderable.pk, .ok⟩ := by
  by_cases h1 : (resolveIn db ids).length = ids.length
  case neg =>
    exfalso
    have heq : reorder_categories db (.withIds ids) = ⟨db, [], .notFound invalidIdsMsg⟩ := by
      simp [reorder_categories, h1]
    rw [heq] at h
    exact absurd h (by simp)
  by_cases h2 : (resolveIn db ids).length = db.length
  case neg =>
    exfalso
    have h2' : ids.length ≠ db.length := by rw [← h1]; exact h2
    have heq : reorder_categories db (.withIds ids) = ⟨db, [], .notFound notAllMsg⟩ := by
      simp [reorder_categories, h1, h2, h2']
    rw [heq] at h
    exact absurd h (by simp)
  have hres : resolveIn db ids = db := resolveIn_eq_self h2
  cases hap : applyStrict ids (resolveIn db ids) with
  | none =>
    exfalso
    have h3 : db.length = ids.length := by rw [← h2, h1]
    rw [hres] at hap
    have heq : reorder_categories db (.withIds ids) = ⟨db, [], .serverError⟩ := by
      simp [reorder_categories, h1, h2, h3, hres, hap]
    rw [heq] at h
    exact absurd h (by simp)
  | some x =>
    have hmem : ∀ c ∈ db, natToStr c.pk ∈ ids := by
      rw [hres] at hap
      exact applyStrict_mem hap
    have hlen : db.length = ids.length := by rw [← h2, h1]
    exact ⟨hlen, hmem, reorder_categories_of_valid h1 h2 hmem⟩

/-- Success-path computation of `reorder_questions`. -/
theorem reorder_questions_of_valid {db : List Orderable} {ids : List String}
    (h1 : (resolveIn db (ids.filter pyIsDigit)).length = (ids.filter pyIsDigit).length)
    (h2 : (resolveIn db (ids.filter pyIsDigit)).length = db.length)
    (hmem : ∀ c ∈ db, natToStr c.pk ∈ ids) :
    reorder_questions db (.withIds ids) =
      ⟨db.map (updPos ids),
       (db.filter (fun c => newPos ids c != c.position)).map Orderable.pk,
       some (systemOrderOf ids), 1, .ok⟩ := by
  have hres : resolveIn db (ids.filter pyIsDigit) = db := resolveIn_eq_self h2
  have h3 : db.length = (ids.filter pyIsDigit).length := by rw [← h2, h1]
  have hap := applyStrict_some ids db hmem
  simp [reorder_questions, h1, h2, hres, h3, hap]

/-- Inversion for `.ok` responses of `reorder_questions`. -/
theorem reorder_questions_ok {db : List Orderable} {ids : List String}
    (h : (reorder_questions db (.withIds ids)).resp = .ok) :
    db.length = (ids.filter pyIsDigit).length ∧ (∀ c ∈ db, natToStr c.pk ∈ ids) ∧
    reorder_questions db (.withIds ids) =
      ⟨db.map (updPos ids),
       (db.filter (fun c => newPos ids c != c.position)).map Orderable.pk,
       some (systemOrderOf ids), 1, .ok⟩ := by
  by_cases h1 : (resolveIn db (ids.filter pyIsDigit)).length = (ids.filter pyIsDigit).length
  case neg =>
    exfalso
    have heq : reorder_questions db (.withIds ids) = ⟨db, [], none, 0, .notFound invalidIdsMsg⟩ := by
      simp [reorder_questions, h1]
    rw [heq] at h
    exact absurd h (by simp)
  by_cases h2 : (resolveIn db (ids.filter pyIsDigit)).length = db.length
  case neg =>
    exfalso
    have h2' : (ids.filter pyIsDigit).length ≠ db.length := by rw [← h1]; exact h2
    have heq : reorder_questions db (.withIds ids) = ⟨db, [], none, 0, .notFound notAllMsg⟩ := by
      simp [reorder_questions, h1, h2, h2']
    rw [heq] at h
    exact absurd h (by simp)
  have hres : resolveIn db (ids.filter pyIsDigit) = db := resolveIn_eq_self h2
  cases hap : applyStrict ids (resolveIn db (ids.filter pyIsDigit)) with
  | none =>
    exfalso
    have h3 : db.length = (ids.filter pyIsDigit).length := by rw [← h2, h1]
    rw [hres] at hap
    have heq : reorder_questions db (.withIds ids) = ⟨db, [], none, 0, .serverError⟩ := by
      simp [reorder_questions, h1, h2, h3, hres, hap]
    rw [heq] at h
    exact absurd h (by simp)
  | some x =>
    have hmem : ∀ c ∈ db, natToStr c.pk ∈ ids := by
      rw [hres] at hap
      exact applyStrict_mem hap
    have hlen : db.length = (ids.filter pyIsDigit).length := by rw [← h2, h1]
    exact ⟨hlen, hmem, reorder_questions_of_valid h1 h2 hmem⟩

/-! ### The relaxed item loop -/

theorem applyItems_some (ids : List String) (target : Option Nat) : ∀ (db : List Item),
    (∀ i ∈ db, matchesIds ids i.pk = true → natToStr i.pk ∈ ids) →
    applyItems ids target db = some (db.map (updItem ids target),
      (db.filter (fun i => matchesIds ids i.pk && itemMoved ids target i)).map (itemLogOf target))
  | [], _ => rfl
  | i :: rest, h => by
    have hrest := applyItems_some ids target rest (fun x hx => h x (List.mem_cons_of_mem _ hx))
    by_cases hm : matchesIds ids i.pk = true
    · obtain ⟨pos, hpos⟩ := Option.isSome_iff_exists.mp
        (pyIndex_isSome_iff.mpr (h i (List.mem_cons_self _ _) hm))
      have hnp : newPosI ids i = pos := by simp [newPosI, hpos]
      by_cases hmove : pos ≠ i.position ∨ target ≠ i.category
      · have hb : itemMoved ids target i = true := by
          simp only [itemMoved, hnp, Bool.or_eq_true, bne_iff_ne]
          exact hmove
        have hu : updItem ids target i = { i with position := pos, category := target } := by
          simp [updItem, hm, hb, hnp]
        simp [applyItems, hm, hpos, hrest, hmove, List.filter_cons, hb, hu, itemLogOf]
      · have hb : itemMoved ids target i = false := by
          simp only [itemMoved, hnp]
          push_neg at hmove
          simp [hmove.1, hmove.2]
        have hu : updItem ids target i = i := by
          simp [updItem, hb]
        simp [applyItems, hm, hpos, hrest, hmove, List.filter_cons, hb, hu]
    · have hb : (matchesIds ids i.pk && itemMoved ids target i) = false := by
        simp [Bool.eq_false_iff.mpr hm]
      have hu : updItem ids target i = i := by
        simp [updItem, Bool.eq_false_iff.mpr hm]
      simp [applyItems, hm, hrest, List.filter_cons, hb, hu]

theorem applyItems_mem {ids : List String} {target : Option Nat} :
    ∀ {db : List Item} {x : List Item × List ItemLog},
    applyItems ids target db = some x →
    ∀ i ∈ db, matchesIds ids i.pk = true → natToStr i.pk ∈ ids := by
  intro db
  induction db with
  | nil => simp
  | cons i rest ih =>
    intro x hx j hj hmj
    simp only [applyItems] at hx
    by_cases hm : matchesIds ids i.pk = true
    · rw [if_pos hm] at hx
      cases h1 : pyIndex ids (natToStr i.pk) with
      | none => rw [h1] at hx; exact absurd hx (by simp)
      | some pos =>
        rw [h1] at hx
        cases h2 : applyItems ids target rest with
        | none => rw [h2] at hx; exact absurd hx (by simp)
        | some y =>
          rcases List.mem_cons.mp hj with rfl | hj'
          · exact pyIndex_isSome_iff.mp (by simp [h1])
          · exact ih h2 j hj' hmj
    · rw [if_neg hm] at hx
      cases h2 : applyItems ids target rest with
      | none => rw [h2] at hx; exact absurd hx (by simp)
      | some y =>
        rcases List.mem_cons.mp hj with rfl | hj'
        · exact absurd hmj hm
        · exact ih h2 j hj' hmj

/-- Success-path computation of `reorder_items`. -/
theorem reorder_items_of_valid {db : List Item} {cats : List Nat} {category : Nat}
    {ids : List String}
    (h1 : (db.filter (fun i => matchesIds ids i.pk)).length = ids.length)
    (hcat : ¬(category ≠ 0 ∧ category ∉ cats))
    (hmem : ∀ i ∈ db, matchesIds ids i.pk = true → natToStr i.pk ∈ ids) :
    reorder_items db cats category (.withIds ids) =
      ⟨db.map (updItem ids (if category = 0 then none else some category)),
       (db.filter (fun i => matchesIds ids i.pk &&
          itemMoved ids (if category = 0 then none else some category) i)).map
         (itemLogOf (if category = 0 then none else some category)), .ok⟩ := by
  have hap := applyItems_some ids (if category = 0 then none else some category) db hmem
  simp [reorder_items, h1, hcat, hap]

/-- Inversion for `.ok` responses of `reorder_items`. -/
theorem reorder_items_ok {db : List Item} {cats : List Nat} {category : Nat}
    {ids : List String}
    (h : (reorder_items db cats category (.withIds ids)).resp = .ok) :
    (db.filter (fun i => matchesIds ids i.pk)).length = ids.length ∧
    (∀ i ∈ db, matchesIds ids i.pk = true → natToStr i.pk ∈ ids) ∧
    reorder_items db cats category (.withIds ids) =
      ⟨db.map (updItem ids (if category = 0 then none else some category)),
       (db.filter (fun i => matchesIds ids i.pk &&
          itemMoved ids (if category = 0 then none else some category) i)).map
         (itemLogOf (if category = 0 then none else some category)), .ok⟩ := by
  by_cases h1 : (db.filter (fun i => matchesIds ids i.pk)).length = ids.length
  case neg =>
    exfalso
    have heq : reorder_items db cats category (.withIds ids) = ⟨db, [], .notFound invalidIdsMsg⟩ := by
      simp [reorder_items, h1]
    rw [heq] at h
    exact absurd h (by simp)
  by_cases hcat : category ≠ 0 ∧ category ∉ cats
  case pos =>
    exfalso
    have heq : reorder_items db cats category (.withIds ids) = ⟨db, [], .serverError⟩ := by
      simp [reorder_items, h1, hcat]
    rw [heq] at h
    exact absurd h (by simp)
  cases hap : applyItems ids (if category = 0 then none else some category) db with
  | none =>
    exfalso
    have heq : reorder_items db cats category (.withIds ids) = ⟨db, [], .serverError⟩ := by
      simp [reorder_items, h1, hcat, hap]
    rw [heq] at h
    exact absurd h (by simp)
  | some x =>
    have hmem : ∀ i ∈ db, matchesIds ids i.pk = true → natToStr i.pk ∈ ids :=
      applyItems_mem hap
    exact ⟨h1, hmem, reorder_items_of_valid h1 hcat hmem⟩

/-! ### Error paths leave the state untouched -/

theorem reorder_categories_err {db : List Orderable} {body : ReqBody}
    (h : (reorder_categories db body).resp ≠ .ok) :
    (reorder_categories db body).db = db ∧ (reorder_categories db body).logs = [] := by
  cases body with
  | malformed => exact ⟨rfl, rfl⟩
  | missingIds => exact ⟨rfl, rfl⟩
  | withIds ids =>
    by_cases h1 : (resolveIn db ids).length = ids.length
    · by_cases h2 : (resolveIn db ids).length = db.length
      · have h2' : ids.length = db.length := by rw [← h1, h2]
        cases hap : applyStrict ids (resolveIn db ids) with
        | none => simp [reorder_categories, h1, h2, h2', hap]
        | some x =>
          exfalso
          apply h
          obtain ⟨a, b⟩ := x
          simp [reorder_categories, h1, h2, h2', hap]
      · have h2' : ids.length ≠ db.length := fun hh => h2 (by rw [h1]; exact hh)
        simp [reorder_categories, h1, h2, h2']
    · simp [reorder_categories, h1]

theorem reorder_questions_err {db : List Orderable} {body : ReqBody}
    (h : (reorder_questions db body).resp ≠ .ok) :
    (reorder_questions db body).db = db ∧ (reorder_questions db body).logs = [] ∧
    (reorder_questions db body).sqo = none ∧ (reorder_questions db body).eventLogs = 0 := by
  cases body with
  | malformed => exact ⟨rfl, rfl, rfl, rfl⟩
  | missingIds => exact ⟨rfl, rfl, rfl, rfl⟩
  | withIds ids =>
    by_cases h1 : (resolveIn db (ids.filter pyIsDigit)).length = (ids.filter pyIsDigit).length
    · by_cases h2 : (resolveIn db (ids.filter pyIsDigit)).length = db.length
      · have h2' : (ids.filter pyIsDigit).length = db.length := by rw [← h1, h2]
        cases hap : applyStrict ids (resolveIn db (ids.filter pyIsDigit)) with
        | none => simp [reorder_questions, h1, h2, h2', hap]
        | some x =>
          exfalso
          apply h
          obtain ⟨a, b⟩ := x
          simp [reorder_questions, h1, h2, h2', hap]
      · have h2' : (ids.filter pyIsDigit).length ≠ db.length := fun hh => h2 (by rw [h1]; exact hh)
        simp [reorder_questions, h1, h2, h2']
    · simp [reorder_questions, h1]

theorem reorder_items_err {db : List Item} {cats : List Nat} {category : Nat}
    {body : ReqBody} (h : (reorder_items db cats category body).resp ≠ .ok) :
    (reorder_items db cats category body).db = db ∧
    (reorder_items db cats category body).logs = [] := by
  cases body with
  | malformed => exact ⟨rfl, rfl⟩
  | missingIds => exact ⟨rfl, rfl⟩
  | withIds ids =>
    by_cases h1 : (db.filter (fun i => matchesIds ids i.pk)).length = ids.length
    · by_cases hcat : category ≠ 0 ∧ category ∉ cats
      · simp [reorder_items, h1, hcat]
      · cases hap : applyItems ids (if category = 0 then none else some category) db with
        | none => simp [reorder_items, h1, hcat, hap]
        | some x =>
          exfalso
          apply h
          obtain ⟨a, b⟩ := x
          simp [reorder_items, h1, hcat, hap]
    · simp [reorder_items, h1]

/-- Rows of a scope with distinct pks are determined by their pk. -/
theorem pk_mem_filter_iff {db : List Orderable} (hnd : (db.map Orderable.pk).Nodup)
    {p : Orderable → Bool} {c : Orderable} (hc : c ∈ db) :
    c.pk ∈ (db.filter p).map Orderable.pk ↔ p c = true := by
  constructor
  · intro h
    obtain ⟨c', hc', hpk⟩ := List.mem_map.mp h
    have hceq : c' = c :=
      List.inj_on_of_nodup_map hnd (List.mem_of_mem_filter hc') hc hpk
    rw [← hceq]
    exact (List.mem_filter.mp hc').2
  · intro h
    exact List.mem_map_of_mem _ (List.mem_filter.mpr ⟨hc, h⟩)

theorem item_pk_log_iff {db : List Item} (hnd : (db.map Item.pk).Nodup)
    {p : Item → Bool} {target : Option Nat} {i : Item} (hi : i ∈ db) :
    (∃ e ∈ (db.filter p).map (itemLogOf target), e.pk = i.pk) ↔ p i = true := by
  constructor
  · intro h
    obtain ⟨e, he, hpk⟩ := h
    obtain ⟨i', hi', hie⟩ := List.mem_map.mp he
    have hpk' : i'.pk = i.pk := by rw [← hie] at hpk; exact hpk
    have hieq : i' = i :=
      List.inj_on_of_nodup_map hnd (List.mem_of_mem_filter hi') hi hpk'
    rw [← hieq]
    exact (List.mem_filter.mp hi').2
  · intro h
    exact ⟨itemLogOf target i, List.mem_map_of_mem _ (List.mem_filter.mpr ⟨hi, h⟩), rfl⟩

/-! ### Positions after a successful strict reconciliation -/

theorem newPos_lt {ids : List String} {c : Orderable} (h : natToStr c.pk ∈ ids) :
    newPos ids c < ids.length := by
  obtain ⟨i, hi⟩ := Option.isSome_iff_exists.mp (pyIndex_isSome_iff.mpr h)
  have hlt := pyIndex_lt_length hi
  simp [newPos, hi, hlt]

theorem positions_nodup {db : List Orderable} {ids : List String}
    (hnd : (db.map Orderable.pk).Nodup) (hmem : ∀ c ∈ db, natToStr c.pk ∈ ids) :
    (db.map (fun c => newPos ids c)).Nodup := by
  refine List.Nodup.map_on ?_ (List.Nodup.of_map _ hnd)
  intro x hx y hy hxy
  obtain ⟨i, hi⟩ := Option.isSome_iff_exists.mp (pyIndex_isSome_iff.mpr (hmem x hx))
  obtain ⟨j, hj⟩ := Option.isSome_iff_exists.mp (pyIndex_isSome_iff.mpr (hmem y hy))
  have hxi : newPos ids x = i := by simp [newPos, hi]
  have hyj : newPos ids y = j := by simp [newPos, hj]
  rw [hxi, hyj] at hxy
  subst hxy
  have hstr : natToStr x.pk = natToStr y.pk := pyIndex_inj hi hj
  exact List.inj_on_of_nodup_map hnd hx hy (natToStr_injective hstr)

theorem positions_perm {db : List Orderable} {ids : List String}
    (hnd : (db.map Orderable.pk).Nodup) (hlen : db.length = ids.length)
    (hmem : ∀ c ∈ db, natToStr c.pk ∈ ids) :
    (db.map (fun c => newPos ids c)).Perm (List.range db.length) := by
  have hnodup := positions_nodup hnd hmem
  have hsub : db.map (fun c => newPos ids c) ⊆ List.range db.length := by
    intro p hp
    obtain ⟨c, hc, rfl⟩ := List.mem_map.mp hp
    rw [List.mem_range, hlen]
    exact newPos_lt (hmem c hc)
  exact (List.subperm_of_subset hnodup hsub).perm_of_length_le (by simp)

/-! ### Counting the resolved rows (validation classification) -/

theorem dedup_length_lt {α : Type} [DecidableEq α] {l : List α} (h : ¬l.Nodup) :
    l.dedup.length < l.length := by
  rcases Nat.lt_or_ge l.dedup.length l.length with hlt | hge
  · exact hlt
  · exfalso
    have hsub := List.dedup_sublist l
    have heq := hsub.eq_of_length (le_antisymm hsub.length_le hge)
    exact h (heq ▸ List.nodup_dedup l)

theorem resolve_pk_nodup {db : List Orderable} {ids : List String}
    (hnd : (db.map Orderable.pk).Nodup) : ((resolveIn db ids).map Orderable.pk).Nodup :=
  ((List.filter_sublist db).map _).nodup hnd

theorem resolve_pk_mem {db : List Orderable} {ids : List String} {p : Nat}
    (hp : p ∈ (resolveIn db ids).map Orderable.pk) :
    p ∈ (ids.filter pyIsDigit).map strToNat := by
  obtain ⟨c, hc, rfl⟩ := List.mem_map.mp hp
  have hm : matchesIds ids c.pk = true := (List.mem_filter.mp hc).2
  simp only [matchesIds, List.any_eq_true, Bool.and_eq_true, beq_iff_eq] at hm
  obtain ⟨s, hs, hdig, hval⟩ := hm
  exact List.mem_map.mpr ⟨s, List.mem_filter.mpr ⟨hs, hdig⟩, hval⟩

theorem resolve_length_le {db : List Orderable} {ids : List String}
    (hnd : (db.map Orderable.pk).Nodup) :
    (resolveIn db ids).length ≤ ((ids.filter pyIsDigit).map strToNat).dedup.length := by
  have hsp : ((resolveIn db ids).map Orderable.pk).Subperm
      ((ids.filter pyIsDigit).map strToNat).dedup :=
    List.subperm_of_subset (resolve_pk_nodup hnd)
      (fun p hp => List.mem_dedup.mpr (resolve_pk_mem hp))
  simpa using hsp.length_le

theorem resolve_lt_of_not_digit {db : List Orderable} {ids : List String} {s : String}
    (hnd : (db.map Orderable.pk).Nodup) (hs : s ∈ ids) (hdig : pyIsDigit s = false) :
    (resolveIn db ids).length < ids.length := by
  have h1 := @resolve_length_le db ids hnd
  have h2 : (((ids.filter pyIsDigit).map strToNat).dedup).length ≤
      ((ids.filter pyIsDigit).map strToNat).length :=
    (List.dedup_sublist _).length_le
  have h3 : (ids.filter pyIsDigit).length < ids.length :=
    List.length_filter_lt_length_iff_exists.mpr ⟨s, hs, by simp [hdig]⟩
  have h4 : ((ids.filter pyIsDigit).map strToNat).length = (ids.filter pyIsDigit).length :=
    List.length_map _ _
  omega

theorem resolve_lt_of_not_nodup {db : List Orderable} {ids : List String}
    (hnd : (db.map Orderable.pk).Nodup) (h : ¬ids.Nodup) :
    (resolveIn db ids).length < ids.length := by
  obtain ⟨s, hdup⟩ := List.exists_duplicate_iff_not_nodup.mpr h
  cases hdig : pyIsDigit s with
  | false => exact resolve_lt_of_not_digit hnd hdup.mem hdig
  | true =>
    have hsub : [s, s].Sublist ids := List.duplicate_iff_sublist.mp hdup
    have hsubf : [s, s].Sublist (ids.filter pyIsDigit) := by
      have := hsub.filter pyIsDigit
      simpa [hdig] using this
    have hsubm : [strToNat s, strToNat s].Sublist ((ids.filter pyIsDigit).map strToNat) := by
      simpa using hsubf.map strToNat
    have hnotnd : ¬((ids.filter pyIsDigit).map strToNat).Nodup := by
      intro hc
      exact (List.nodup_iff_sublist.mp hc (strToNat s)) hsubm
    have h1 := @resolve_length_le db ids hnd
    have h2 := dedup_length_lt hnotnd
    have h3 : ((ids.filter pyIsDigit).map strToNat).length = (ids.filter pyIsDigit).length :=
      List.length_map _ _
    have h4 := List.length_filter_le pyIsDigit ids
    omega

theorem resolve_lt_of_unresolved {db : List Orderable} {ids : List String} {s : String}
    (hnd : (db.map Orderable.pk).Nodup) (hs : s ∈ ids) (h : resolvesId db s = false) :
    (resolveIn db ids).length < ids.length := by
  cases hdig : pyIsDigit s with
  | false => exact resolve_lt_of_not_digit hnd hs hdig
  | true =>
    have hval : ∀ c ∈ db, ¬strToNat s = c.pk := by
      intro c hc hval
      have : resolvesId db s = true := by
        simp only [resolvesId, Bool.and_eq_true, List.any_eq_true, beq_iff_eq]
        exact ⟨hdig, c, hc, hval⟩
      rw [h] at this
      exact absurd this (by simp)
    have hnotmem : strToNat s ∉ (resolveIn db ids).map Orderable.pk := by
      intro hmem
      obtain ⟨c, hc, hpk⟩ := List.mem_map.mp hmem
      exact hval c (List.mem_of_mem_filter hc) hpk.symm
    have hcons : (strToNat s :: (resolveIn db ids).map Orderable.pk).Nodup :=
      List.nodup_cons.mpr ⟨hnotmem, resolve_pk_nodup hnd⟩
    have hsp : (strToNat s :: (resolveIn db ids).map Orderable.pk).Subperm
        ((ids.filter pyIsDigit).map strToNat).dedup := by
      refine List.subperm_of_subset hcons ?_
      intro p hp
      rcases List.mem_cons.mp hp with rfl | hp'
      · exact List.mem_dedup.mpr
          (List.mem_map.mpr ⟨s, List.mem_filter.mpr ⟨hs, hdig⟩, rfl⟩)
      · exact List.mem_dedup.mpr (resolve_pk_mem hp')
    have h1 := hsp.length_le
    have h2 : (((ids.filter pyIsDigit).map strToNat).dedup).length ≤
        ((ids.filter pyIsDigit).map strToNat).length :=
      (List.dedup_sublist _).length_le
    have h3 : ((ids.filter pyIsDigit).map strToNat).length = (ids.filter pyIsDigit).length :=
      List.length_map _ _
    have h4 := List.length_filter_le pyIsDigit ids
    simp only [List.length_cons, List.length_map] at h1
    omega

theorem resolve_eq_of_exact {db : List Orderable} {ids : List String}
    (hnd : (db.map Orderable.pk).Nodup)
    (hres : ∀ s ∈ ids, resolvesId db s = true)
    (hvnd : (ids.map strToNat).Nodup) :
    (resolveIn db ids).length = ids.length := by
  have h1 : ((resolveIn db ids).map Orderable.pk).Perm (ids.map strToNat) := by
    rw [List.perm_ext_iff_of_nodup (resolve_pk_nodup hnd) hvnd]
    intro p
    constructor
    · intro hp
      obtain ⟨c, hc, rfl⟩ := List.mem_map.mp hp
      have hm : matchesIds ids c.pk = true := (List.mem_filter.mp hc).2
      simp only [matchesIds, List.any_eq_true, Bool.and_eq_true, beq_iff_eq] at hm
      obtain ⟨s, hs, _, hval⟩ := hm
      exact List.mem_map.mpr ⟨s, hs, hval⟩
    · intro hp
      obtain ⟨s, hs, rfl⟩ := List.mem_map.mp hp
      have h2 := hres s hs
      simp only [resolvesId, Bool.and_eq_true, List.any_eq_true, beq_iff_eq] at h2
      obtain ⟨hdig, c, hc, hval⟩ := h2
      refine List.mem_map.mpr ⟨c, List.mem_filter.mpr ⟨hc, ?_⟩, hval.symm⟩
      simp only [matchesIds, List.any_eq_true, Bool.and_eq_true, beq_iff_eq]
      exact ⟨s, hs, hdig, hval⟩
  simpa using h1.length_eq

theorem resolve_lt_db_of_missing {db : List Orderable} {ids : List String} {c : Orderable}
    (hc : c ∈ db) (hm : matchesIds ids c.pk = false) :
    (resolveIn db ids).length < db.length :=
  List.length_filter_lt_length_iff_exists.mpr ⟨c, hc, by simp [hm]⟩

/-! ### The stable sort -/

theorem insByKey_perm {α β : Type} [LinearOrder β] (key : α → β) (a : α) :
    ∀ (l : List α), (insByKey key a l).Perm (a :: l)
  | [] => List.Perm.refl _
  | y :: l => by
    simp only [insByKey]
    by_cases h : key y ≤ key a
    · rw [if_pos h]
      exact ((insByKey_perm key a l).cons y).trans (List.Perm.swap a y l)
    · rw [if_neg h]

theorem insByKey_mem {α β : Type} [LinearOrder β] {key : α → β} {a b : α} {l : List α} :
    b ∈ insByKey key a l ↔ b = a ∨ b ∈ l := by
  rw [(insByKey_perm key a l).mem_iff]
  simp

theorem insByKey_pairwise {α β : Type} [LinearOrder β] {key : α → β} (a : α) :
    ∀ {l : List α}, List.Pairwise (fun x y => key x ≤ key y) l →
    List.Pairwise (fun x y => key x ≤ key y) (insByKey key a l)
  | [], _ => by simp [insByKey]
  | y :: l, hp => by
    simp only [insByKey]
    by_cases h : key y ≤ key a
    · rw [if_pos h]
      refine List.Pairwise.cons ?_ (insByKey_pairwise a (List.Pairwise.of_cons hp))
      intro b hb
      rcases insByKey_mem.mp hb with rfl | hb'
      · exact h
      · exact (List.pairwise_cons.mp hp).1 b hb'
    · rw [if_neg h]
      refine List.Pairwise.cons ?_ hp
      intro b hb
      have hay : key a ≤ key y := le_of_not_le h
      rcases List.mem_cons.mp hb with rfl | hb'
      · exact hay
      · exact hay.trans ((List.pairwise_cons.mp hp).1 b hb')

theorem sortAux_perm {α β : Type} [LinearOrder β] (key : α → β) :
    ∀ (l acc : List α), (sortAux key acc l).Perm (acc ++ l)
  | [], acc => by simp [sortAux]
  | a :: l, acc => by
    simp only [sortAux]
    refine (sortAux_perm key l (insByKey key a acc)).trans ?_
    refine (List.Perm.append_right l (insByKey_perm key a acc)).trans ?_
    exact List.perm_middle.symm

theorem sortAux_pairwise {α β : Type} [LinearOrder β] {key : α → β} :
    ∀ (l : List α) {acc : List α},
    List.Pairwise (fun x y => key x ≤ key y) acc →
    List.Pairwise (fun x y => key x ≤ key y) (sortAux key acc l)
  | [], _, hacc => hacc
  | a :: l, acc, hacc => sortAux_pairwise l (insByKey_pairwise a hacc)

theorem sortByKey_perm {α β : Type} [LinearOrder β] (key : α → β) (l : List α) :
    (sortByKey key l).Perm l :=
  sortAux_perm key l []

theorem sortByKey_pairwise {α β : Type} [LinearOrder β] (key : α → β) (l : List α) :
    List.Pairwise (fun x y => key x ≤ key y) (sortByKey key l) :=
  sortAux_pairwise l (List.Pairwise.nil)

theorem insByKey_of_le {α β : Type} [LinearOrder β] {key : α → β} {a : α} :
    ∀ {l : List α}, (∀ x ∈ l, key x ≤ key a) → insByKey key a l = l ++ [a]
  | [], _ => rfl
  | y :: l, h => by
    simp only [insByKey, if_pos (h y (List.mem_cons_self _ _))]
    rw [insByKey_of_le (fun x hx => h x (List.mem_cons_of_mem _ hx))]
    rfl

theorem sortAux_of_pairwise {α β : Type} [LinearOrder β] {key : α → β} :
    ∀ (l acc : List α), List.Pairwise (fun x y => key x ≤ key y) (acc ++ l) →
    sortAux key acc l = acc ++ l
  | [], acc, _ => by simp [sortAux]
  | a :: l, acc, hp => by
    simp only [sortAux]
    have hacc : ∀ x ∈ acc, key x ≤ key a :=
      fun x hx => (List.pairwise_append.mp hp).2.2 x hx a (List.mem_cons_self _ _)
    rw [insByKey_of_le hacc]
    have hp' : List.Pairwise (fun x y => key x ≤ key y) ((acc ++ [a]) ++ l) := by
      rw [List.append_assoc]
      simpa using hp
    rw [sortAux_of_pairwise l (acc ++ [a]) hp']
    simp

theorem sortByKey_of_pairwise {α β : Type} [LinearOrder β] {key : α → β} {l : List α}
    (h : List.Pairwise (fun x y => key x ≤ key y) l) : sortByKey key l = l :=
  sortAux_of_pairwise l [] (by simpa using h)

theorem insByKey_filter {α β : Type} [LinearOrder β] {key : α → β} (p : β) (a : α) :
    ∀ {l : List α}, List.Pairwise (fun x y => key x ≤ key y) l →
    (insByKey key a l).filter (fun e => decide (key e = p)) =
      (l ++ [a]).filter (fun e => decide (key e = p))
  | [], _ => rfl
  | y :: l, hp => by
    simp only [insByKey]
    by_cases h : key y ≤ key a
    · rw [if_pos h]
      have ih := insByKey_filter p a (List.Pairwise.of_cons hp)
      simp only [List.cons_append, List.filter_cons, ih, List.filter_append]
    · rw [if_neg h]
      have hlt : key a < key y := not_le.mp h
      have hyb : ∀ b ∈ y :: l, key a < key b := by
        intro b hb
        rcases List.mem_cons.mp hb with rfl | hb'
        · exact hlt
        · exact hlt.trans_le ((List.pairwise_cons.mp hp).1 b hb')
      by_cases ha : key a = p
      · have hnone : (y :: l).filter (fun e => decide (key e = p)) = [] := by
          rw [List.filter_eq_nil_iff]
          intro b hb
          simp only [decide_eq_true_eq]
          intro hbp
          exact absurd (ha ▸ hbp ▸ hyb b hb) (lt_irrefl _)
        rw [List.filter_append, hnone]
        simp [List.filter_cons, ha, hnone]
      · rw [List.filter_append]
        simp [List.filter_cons, ha]

theorem sortAux_filter {α β : Type} [LinearOrder β] {key : α → β} (p : β) :
    ∀ (l acc : List α), List.Pairwise (fun x y => key x ≤ key y) acc →
    (sortAux key acc l).filter (fun e => decide (key e = p)) =
      acc.filter (fun e => decide (key e = p)) ++ l.filter (fun e => decide (key e = p))
  | [], acc, _ => by simp [sortAux]
  | a :: l, acc, hacc => by
    simp only [sortAux]
    rw [sortAux_filter p l (insByKey key a acc) (insByKey_pairwise a hacc)]
    rw [insByKey_filter p a hacc]
    cases hPa : decide (key a = p) <;>
      simp [List.filter_append, List.filter_cons, hPa, List.append_assoc]

/-- Stability of the sort: for each key value, the elements carrying it
appear in the output exactly as they appear in the input. -/
theorem sortByKey_filter {α β : Type} [LinearOrder β] (key : α → β) (p : β) (l : List α) :
    (sortByKey key l).filter (fun e => decide (key e = p)) =
      l.filter (fun e => decide (key e = p)) := by
  simpa using sortAux_filter p l [] List.Pairwise.nil

/-! ### Adjacent swaps -/

theorem get?_pair_decomp {α : Type} : ∀ {l : List α} {i : Nat} {a b : α},
    l.get? i = some a → l.get? (i + 1) = some b →
    ∃ l₁ l₂, l = l₁ ++ a :: b :: l₂ ∧ l₁.length = i := by
  intro l
  induction l with
  | nil => intro i a b h1 _; simp at h1
  | cons x xs ih =>
    intro i a b h1 h2
    cases i with
    | zero =>
      rw [List.get?_cons_zero, Option.some.injEq] at h1
      rw [List.get?_cons_succ] at h2
      cases xs with
      | nil => simp at h2
      | cons y ys =>
        rw [List.get?_cons_zero, Option.some.injEq] at h2
        exact ⟨[], ys, by simp [h1, h2], rfl⟩
    | succ n =>
      rw [List.get?_cons_succ] at h1 h2
      obtain ⟨l₁, l₂, heq, hlen⟩ := ih h1 h2
      exact ⟨x :: l₁, l₂, by simp [heq], by simp [hlen]⟩

theorem append_get?_self {α : Type} (l₁ rest : List α) :
    (l₁ ++ rest).get? l₁.length = rest.get? 0 := by
  rw [List.get?_append_right (le_refl _)]
  simp

theorem append_get?_succ {α : Type} (l₁ rest : List α) :
    (l₁ ++ rest).get? (l₁.length + 1) = rest.get? 1 := by
  rw [List.get?_append_right (by omega)]
  congr 1
  omega

theorem swapAdj_append {α : Type} : ∀ (l₁ : List α) (a b : α) (l₂ : List α),
    swapAdj (l₁ ++ a :: b :: l₂) l₁.length (l₁.length + 1) = l₁ ++ b :: a :: l₂
  | [], a, b, l₂ => rfl
  | x :: xs, a, b, l₂ => by
    have h1 : (xs ++ a :: b :: l₂).get? xs.length = some a := by
      rw [append_get?_self]; rfl
    have h2 : (xs ++ a :: b :: l₂).get? (xs.length + 1) = some b := by
      rw [append_get?_succ]; rfl
    have h1c : (x :: (xs ++ a :: b :: l₂)).get? (xs.length + 1) = some a := by
      rw [List.get?_cons_succ]; exact h1
    have h2c : (x :: (xs ++ a :: b :: l₂)).get? (xs.length + 1 + 1) = some b := by
      rw [List.get?_cons_succ]; exact h2
    have ih : ((xs ++ a :: b :: l₂).set xs.length b).set (xs.length + 1) a
        = xs ++ b :: a :: l₂ := by
      have ih0 := swapAdj_append xs a b l₂
      unfold swapAdj at ih0
      rw [h1, h2] at ih0
      exact ih0
    simp only [List.cons_append, List.length_cons]
    unfold swapAdj
    rw [h1c, h2c]
    show ((x :: (xs ++ a :: b :: l₂)).set (xs.length + 1) b).set (xs.length + 1 + 1) a
        = x :: (xs ++ b :: a :: l₂)
    rw [List.set_cons_succ, List.set_cons_succ, ih]

theorem swapAdj_perm {α : Type} (l : List α) (i : Nat) : (swapAdj l i (i + 1)).Perm l := by
  cases h1 : l.get? i with
  | none =>
    unfold swapAdj
    rw [h1]
  | some a =>
    cases h2 : l.get? (i + 1) with
    | none =>
      unfold swapAdj
      rw [h1, h2]
    | some b =>
      obtain ⟨l₁, l₂, heq, hlen⟩ := get?_pair_decomp h1 h2
      subst heq
      subst hlen
      rw [swapAdj_append]
      exact List.Perm.append_left l₁ (List.Perm.swap a b l₂)

/-- The swap arm of `moveCore` computes a permutation of the sorted
scope. -/
theorem swapArm_perm {α : Type} (items : List α) (index : Nat) (up : Bool) :
    (swapArm items index up).Perm items := by
  unfold swapArm
  by_cases c1 : index ≠ 0 ∧ up
  · rw [if_pos c1]
    have heq : swapAdj items (index - 1) index = swapAdj items (index - 1) ((index - 1) + 1) := by
      congr 1
      omega
    rw [heq]
    exact swapAdj_perm items (index - 1)
  · rw [if_neg c1]
    by_cases c2 : index ≠ items.length - 1 ∧ up = false
    · rw [if_pos c2]
      exact swapAdj_perm items index
    · rw [if_neg c2]

/-! ### The renumbering loop -/

theorem renumberBy_cons_pos {α : Type} {gp : α → Nat} {sp : α → Nat → α} {gk : α → Nat}
    {e : α} {k : Nat} {rest : List α} (h : gp e = k) :
    renumberBy gp sp gk k (e :: rest) =
      (e :: (renumberBy gp sp gk (k + 1) rest).1,
       (renumberBy gp sp gk (k + 1) rest).2) := by
  simp [renumberBy, h]

theorem renumberBy_cons_neg {α : Type} {gp : α → Nat} {sp : α → Nat → α} {gk : α → Nat}
    {e : α} {k : Nat} {rest : List α} (h : ¬ gp e = k) :
    renumberBy gp sp gk k (e :: rest) =
      (sp e k :: (renumberBy gp sp gk (k + 1) rest).1,
       gk e :: (renumberBy gp sp gk (k + 1) rest).2) := by
  simp [renumberBy, h]

theorem renumberBy_fst_length {α : Type} (gp : α → Nat) (sp : α → Nat → α) (gk : α → Nat) :
    ∀ (k : Nat) (l : List α), ((renumberBy gp sp gk k l).1).length = l.length
  | _, [] => rfl
  | k, e :: rest => by
    have ih := renumberBy_fst_length gp sp gk (k + 1) rest
    by_cases h : gp e = k
    · rw [renumberBy_cons_pos h]
      simpa using ih
    · rw [renumberBy_cons_neg h]
      simpa using ih

theorem renumberBy_fst_get? {α : Type} {gp : α → Nat} {sp : α → Nat → α} {gk : α → Nat}
    (hset : ∀ e p, gp (sp e p) = p) :
    ∀ (k : Nat) (l : List α) (j : Nat) (e : α),
    ((renumberBy gp sp gk k l).1).get? j = some e → gp e = k + j := by
  intro k l
  induction l generalizing k with
  | nil => intro j e hj; simp [renumberBy] at hj
  | cons x rest ih =>
    intro j e hj
    by_cases hx : gp x = k
    · rw [renumberBy_cons_pos hx] at hj
      cases j with
      | zero =>
        rw [List.get?_cons_zero, Option.some.injEq] at hj
        rw [← hj]
        simpa using hx
      | succ n =>
        rw [List.get?_cons_succ] at hj
        rw [ih (k + 1) n e hj]
        omega
    · rw [renumberBy_cons_neg hx] at hj
      cases j with
      | zero =>
        rw [List.get?_cons_zero, Option.some.injEq] at hj
        rw [← hj]
        simpa using hset x k
      | succ n =>
        rw [List.get?_cons_succ] at hj
        rw [ih (k + 1) n e hj]
        omega

theorem renumberBy_id {α : Type} {gp : α → Nat} {sp : α → Nat → α} {gk : α → Nat} :
    ∀ (k : Nat) (l : List α),
    (∀ (j : Nat) (e : α), l.get? j = some e → gp e = k + j) →
    renumberBy gp sp gk k l = (l, [])
  | _, [], _ => rfl
  | k, x :: rest, h => by
    have h0 : gp x = k := by simpa using h 0 x List.get?_cons_zero
    have hrest := @renumberBy_id α gp sp gk (k + 1) rest (fun j e hj => by
      have h2 := h (j + 1) e (by rw [List.get?_cons_succ]; exact hj)
      rw [show k + 1 + j = k + (j + 1) from by omega]
      exact h2)
    rw [renumberBy_cons_pos h0, hrest]

theorem renumberBy_append_id {α : Type} {gp : α → Nat} {sp : α → Nat → α} {gk : α → Nat} :
    ∀ (k : Nat) (l₁ l₂ : List α),
    (∀ (j : Nat) (e : α), l₁.get? j = some e → gp e = k + j) →
    renumberBy gp sp gk k (l₁ ++ l₂) =
      (l₁ ++ (renumberBy gp sp gk (k + l₁.length) l₂).1,
       (renumberBy gp sp gk (k + l₁.length) l₂).2)
  | k, [], l₂, _ => by simp
  | k, x :: l₁, l₂, h => by
    have h0 : gp x = k := by simpa using h 0 x List.get?_cons_zero
    have ih := @renumberBy_append_id α gp sp gk (k + 1) l₁ l₂ (fun j e hj => by
      have h2 := h (j + 1) e (by rw [List.get?_cons_succ]; exact hj)
      rw [show k + 1 + j = k + (j + 1) from by omega]
      exact h2)
    have hl : k + 1 + l₁.length = k + (x :: l₁).length := by
      simp only [List.length_cons]
      omega
    rw [List.cons_append, renumberBy_cons_pos h0, ih, hl]
    rfl

theorem renumberBy_snd_nil {α : Type} {gp : α → Nat} {sp : α → Nat → α} {gk : α → Nat} :
    ∀ (k : Nat) (l : List α),
    (renumberBy gp sp gk k l).2 = [] ↔
      ∀ (j : Nat) (e : α), l.get? j = some e → gp e = k + j := by
  intro k l
  induction l generalizing k with
  | nil =>
    simp only [renumberBy]
    constructor
    · intro _ j e hj
      simp at hj
    · intro _
      trivial
  | cons x rest ih =>
    by_cases hx : gp x = k
    · rw [renumberBy_cons_pos hx]
      simp only
      rw [ih (k + 1)]
      constructor
      · intro hrest j e hj
        cases j with
        | zero =>
          rw [List.get?_cons_zero, Option.some.injEq] at hj
          rw [← hj]
          simpa using hx
        | succ n =>
          rw [List.get?_cons_succ] at hj
          rw [show k + (n + 1) = k + 1 + n from by omega]
          exact hrest n e hj
      · intro hall j e hj
        have h2 := hall (j + 1) e (by rw [List.get?_cons_succ]; exact hj)
        rw [show k + 1 + j = k + (j + 1) from by omega]
        exact h2
    · rw [renumberBy_cons_neg hx]
      simp only
      constructor
      · intro hc
        exact absurd hc (by simp)
      · intro hall
        exact absurd (by simpa using hall 0 x List.get?_cons_zero) hx

theorem map_eq_range_of_get? {α : Type} (gp : α → Nat) (l : List α)
    (h : ∀ (j : Nat) (e : α), l.get? j = some e → gp e = j) :
    l.map gp = List.range l.length := by
  refine List.ext_get (by simp) ?_
  intro n h₁ h₂
  rw [List.get_map, List.get_range]
  exact h n _ (List.get?_eq_get (by simpa using h₁))

/-- A list whose every entry carries its own index is pairwise sorted
by that key. -/
theorem pairwise_of_get?_pos {α : Type} {gp : α → Nat} {l : List α}
    (h : ∀ (j : Nat) (e : α), l.get? j = some e → gp e = j) :
    List.Pairwise (fun x y => gp x ≤ gp y) l := by
  rw [List.pairwise_iff_get]
  intro i j hij
  have hi := h i (l.get i) (List.get?_eq_get i.isLt)
  have hj := h j (l.get j) (List.get?_eq_get j.isLt)
  rw [hi, hj]
  exact le_of_lt hij

/-! ### Locating a row by primary key -/

theorem findIdx_nodup_pk {α : Type} (gk : α → Nat) :
    ∀ {l : List α} {j : Nat} (h : j < l.length), (l.map gk).Nodup →
    l.findIdx (fun e => gk e == gk (l.get ⟨j, h⟩)) = j := by
  intro l
  induction l with
  | nil => intro j h _; simp at h
  | cons x xs ih =>
    intro j h hnd
    cases j with
    | zero =>
      rw [List.findIdx_cons]
      simp [List.get_cons_zero]
    | succ n =>
      have htarget : (x :: xs).get ⟨n + 1, h⟩ = xs.get ⟨n, by simpa using h⟩ :=
        List.get_cons_succ
      have hmemt : xs.get ⟨n, by simpa using h⟩ ∈ xs := List.get_mem _ _ _
      have hne : gk x ≠ gk (xs.get ⟨n, by simpa using h⟩) := by
        intro hcontra
        have hx : gk x ∉ xs.map gk := (List.nodup_cons.mp (by simpa using hnd)).1
        exact hx (hcontra ▸ List.mem_map_of_mem gk hmemt)
      rw [List.findIdx_cons, htarget]
      have hfalse : (gk x == gk (xs.get ⟨n, by simpa using h⟩)) = false := by
        simpa using hne
      rw [hfalse]
      simp only [cond_false]
      rw [ih (by simpa using h) (List.nodup_cons.mp (by simpa using hnd)).2]

theorem find?_nodup_pk {α : Type} (gk : α → Nat) :
    ∀ {l : List α} {j : Nat} (h : j < l.length), (l.map gk).Nodup →
    l.find? (fun e => gk e == gk (l.get ⟨j, h⟩)) = some (l.get ⟨j, h⟩) := by
  intro l
  induction l with
  | nil => intro j h _; simp at h
  | cons x xs ih =>
    intro j h hnd
    cases j with
    | zero =>
      rw [List.find?_cons]
      simp [List.get_cons_zero]
    | succ n =>
      have htarget : (x :: xs).get ⟨n + 1, h⟩ = xs.get ⟨n, by simpa using h⟩ :=
        List.get_cons_succ
      have hmemt : xs.get ⟨n, by simpa using h⟩ ∈ xs := List.get_mem _ _ _
      have hne : gk x ≠ gk (xs.get ⟨n, by simpa using h⟩) := by
        intro hcontra
        have hx : gk x ∉ xs.map gk := (List.nodup_cons.mp (by simpa using hnd)).1
        exact hx (hcontra ▸ List.mem_map_of_mem gk hmemt)
      rw [List.find?_cons, htarget]
      have hfalse : (gk x == gk (xs.get ⟨n, by simpa using h⟩)) = false := by
        simpa using hne
      rw [hfalse]
      exact ih (by simpa using h) (List.nodup_cons.mp (by simpa using hnd)).2

/-! ### The move helper core -/

theorem get?_pos_of_fin {α : Type} (gp : α → Nat) (l : List α)
    (h : ∀ j : Fin l.length, gp (l.get j) = (j : Nat)) :
    ∀ (j : Nat) (e : α), l.get? j = some e → gp e = j := by
  intro j e hj
  obtain ⟨hlt, hget⟩ := List.get?_eq_some.mp hj
  rw [← hget]
  exact h ⟨j, hlt⟩

theorem moveCore_fst_get? {α : Type} {gp : α → Nat} {sp : α → Nat → α} {gk : α → Nat}
    (hset : ∀ e p, gp (sp e p) = p) (scope : List α) (pk : Nat) (up : Bool) :
    ∀ (j : Nat) (e : α), ((moveCore gp sp gk scope pk up).1).get? j = some e → gp e = j := by
  intro j e h
  unfold moveCore at h
  have := renumberBy_fst_get? hset 0 _ j e h
  simpa using this

theorem moveCore_snd_nil_perm {α : Type} {gp : α → Nat} {sp : α → Nat → α} {gk : α → Nat}
    (scope : List α) (pk : Nat) (up : Bool)
    (h : (moveCore gp sp gk scope pk up).2 = []) :
    (scope.map gp).Perm (List.range scope.length) := by
  unfold moveCore at h
  set swapped := swapArm (sortByKey gp scope)
    ((sortByKey gp scope).findIdx (fun e => gk e == pk)) up with hsw
  have hperm : swapped.Perm scope := (swapArm_perm _ _ _).trans (sortByKey_perm gp scope)
  have hgets := (renumberBy_snd_nil 0 swapped).mp h
  have hmap := map_eq_range_of_get? gp swapped (fun j e hj => by simpa using hgets j e hj)
  have hlen : swapped.length = scope.length := hperm.length_eq
  have hfinal : (scope.map gp).Perm (swapped.map gp) := (hperm.map gp).symm
  rw [hmap, hlen] at hfinal
  exact hfinal

theorem moveCore_boundary_up {α : Type} {gp : α → Nat} {sp : α → Nat → α} {gk : α → Nat}
    (scope : List α)
    (hpos : ∀ (j : Nat) (e : α), scope.get? j = some e → gp e = j)
    (hnd : (scope.map gk).Nodup) {e0 : α} (h0 : scope.get? 0 = some e0) :
    moveCore gp sp gk scope (gk e0) true = (scope, []) := by
  have hsorted : sortByKey gp scope = scope :=
    sortByKey_of_pairwise (pairwise_of_get?_pos hpos)
  unfold moveCore
  rw [hsorted]
  obtain ⟨hlt, hget⟩ := List.get?_eq_some.mp h0
  have hidx : scope.findIdx (fun e => gk e == gk e0) = 0 := by
    have hfind := findIdx_nodup_pk gk hlt hnd
    rw [hget] at hfind
    exact hfind
  rw [hidx]
  unfold swapArm
  have hc1 : ¬(0 ≠ 0 ∧ (true : Bool) = true) := by simp
  have hc2 : ¬(0 ≠ scope.length - 1 ∧ (true : Bool) = false) := by simp
  rw [if_neg hc1, if_neg hc2]
  exact renumberBy_id 0 scope (fun j e hj => by simpa using hpos j e hj)

theorem moveCore_boundary_down {α : Type} {gp : α → Nat} {sp : α → Nat → α} {gk : α → Nat}
    (scope : List α)
    (hpos : ∀ (j : Nat) (e : α), scope.get? j = some e → gp e = j)
    (hnd : (scope.map gk).Nodup) {eL : α} (hL : scope.get? (scope.length - 1) = some eL) :
    moveCore gp sp gk scope (gk eL) false = (scope, []) := by
  have hsorted : sortByKey gp scope = scope :=
    sortByKey_of_pairwise (pairwise_of_get?_pos hpos)
  unfold moveCore
  rw [hsorted]
  obtain ⟨hlt, hget⟩ := List.get?_eq_some.mp hL
  have hidx : scope.findIdx (fun e => gk e == gk eL) = scope.length - 1 := by
    have hfind := findIdx_nodup_pk gk hlt hnd
    rw [hget] at hfind
    exact hfind
  rw [hidx]
  unfold swapArm
  have hc1 : ¬(scope.length - 1 ≠ 0 ∧ (false : Bool) = true) := by simp
  have hc2 : ¬(scope.length - 1 ≠ scope.length - 1 ∧ (false : Bool) = false) := by simp
  rw [if_neg hc1, if_neg hc2]
  exact renumberBy_id 0 scope (fun j e hj => by simpa using hpos j e hj)

/-- Renumbering after an adjacent swap of correctly-positioned rows
logs exactly the two swapped rows, in list order. -/
theorem renumber_swapped_snd {α : Type} {gp : α → Nat} {sp : α → Nat → α} {gk : α → Nat}
    (l₁ : List α) (a b : α) (l₂ : List α)
    (hpos : ∀ (j : Nat) (e : α), (l₁ ++ a :: b :: l₂).get? j = some e → gp e = j) :
    (renumberBy gp sp gk 0 (l₁ ++ b :: a :: l₂)).2 = [gk b, gk a] := by
  have hpre : ∀ (j : Nat) (e : α), l₁.get? j = some e → gp e = 0 + j := by
    intro j e hj
    obtain ⟨hlt, _⟩ := List.get?_eq_some.mp hj
    have hj' : (l₁ ++ a :: b :: l₂).get? j = some e := by
      rw [List.get?_append hlt]
      exact hj
    simpa using hpos j e hj'
  have ha : gp a = l₁.length := by
    refine hpos l₁.length a ?_
    rw [append_get?_self]
    rfl
  have hb : gp b = l₁.length + 1 := by
    refine hpos (l₁.length + 1) b ?_
    rw [append_get?_succ]
    rfl
  have hsuffix : ∀ (j : Nat) (e : α), l₂.get? j = some e → gp e = l₁.length + 1 + 1 + j := by
    intro j e hj
    refine hpos (l₁.length + 1 + 1 + j) e ?_
    rw [List.get?_append_right (by omega)]
    rw [show l₁.length + 1 + 1 + j - l₁.length = j + 1 + 1 from by omega]
    rw [List.get?_cons_succ, List.get?_cons_succ]
    exact hj
  rw [renumberBy_append_id 0 l₁ (b :: a :: l₂) hpre]
  have hzl : 0 + l₁.length = l₁.length := by omega
  rw [hzl]
  have hbne : ¬gp b = l₁.length := by omega
  rw [renumberBy_cons_neg hbne]
  have hane : ¬gp a = l₁.length + 1 := by omega
  rw [renumberBy_cons_neg hane]
  have hrest := @renumberBy_id α gp sp gk (l₁.length + 1 + 1) l₂ hsuffix
  rw [hrest]

theorem moveCore_interior_up {α : Type} {gp : α → Nat} {sp : α → Nat → α} {gk : α → Nat}
    (scope : List α)
    (hpos : ∀ (j : Nat) (e : α), scope.get? j = some e → gp e = j)
    (hnd : (scope.map gk).Nodup) {i : Nat} {a b : α}
    (ha : scope.get? i = some a) (hb : scope.get? (i + 1) = some b) :
    (moveCore gp sp gk scope (gk b) true).2 = [gk b, gk a] := by
  have hsorted : sortByKey gp scope = scope :=
    sortByKey_of_pairwise (pairwise_of_get?_pos hpos)
  unfold moveCore
  rw [hsorted]
  obtain ⟨hltb, hgetb⟩ := List.get?_eq_some.mp hb
  have hidx : scope.findIdx (fun e => gk e == gk b) = i + 1 := by
    have hfind := findIdx_nodup_pk gk hltb hnd
    rw [hgetb] at hfind
    exact hfind
  rw [hidx]
  unfold swapArm
  have hc1 : i + 1 ≠ 0 ∧ (true : Bool) = true := ⟨Nat.succ_ne_zero i, rfl⟩
  rw [if_pos hc1]
  have hsimp : i + 1 - 1 = i := by omega
  rw [hsimp]
  obtain ⟨l₁, l₂, heq, hlen⟩ := get?_pair_decomp ha hb
  subst hlen
  rw [heq, swapAdj_append]
  refine renumber_swapped_snd l₁ a b l₂ ?_
  rw [← heq]
  exact hpos

theorem moveCore_interior_down {α : Type} {gp : α → Nat} {sp : α → Nat → α} {gk : α → Nat}
    (scope : List α)
    (hpos : ∀ (j : Nat) (e : α), scope.get? j = some e → gp e = j)
    (hnd : (scope.map gk).Nodup) {i : Nat} {a b : α}
    (ha : scope.get? i = some a) (hb : scope.get? (i + 1) = some b) :
    (moveCore gp sp gk scope (gk a) false).2 = [gk b, gk a] := by
  have hsorted : sortByKey gp scope = scope :=
    sortByKey_of_pairwise (pairwise_of_get?_pos hpos)
  unfold moveCore
  rw [hsorted]
  obtain ⟨hlta, hgeta⟩ := List.get?_eq_some.mp ha
  obtain ⟨hltb, _⟩ := List.get?_eq_some.mp hb
  have hidx : scope.findIdx (fun e => gk e == gk a) = i := by
    have hfind := findIdx_nodup_pk gk hlta hnd
    rw [hgeta] at hfind
    exact hfind
  rw [hidx]
  unfold swapArm
  have hc1 : ¬(i ≠ 0 ∧ (false : Bool) = true) := by simp
  have hc2 : i ≠ scope.length - 1 ∧ (false : Bool) = false := ⟨by omega, rfl⟩
  rw [if_neg hc1, if_pos hc2]
  obtain ⟨l₁, l₂, heq, hlen⟩ := get?_pair_decomp ha hb
  subst hlen
  rw [heq, swapAdj_append]
  refine renumber_swapped_snd l₁ a b l₂ ?_
  rw [← heq]
  exact hpos

/-! ### Virtual entries of the question display list -/

theorem sysEntry_mem_fakes (s : EventSettings) (k : String) (hk : k ∈ systemKeys) :
    (sysEntry s k ∈ fakeQuestions s ↔ askedFlag s k = true) := by
  simp only [systemKeys, List.mem_cons, List.not_mem_nil, or_false] at hk
  by_cases h1 : s.attendee_names_asked <;>
    by_cases h2 : s.attendee_emails_asked <;>
      by_cases h3 : s.attendee_company_asked <;>
        by_cases h4 : s.attendee_addresses_asked <;>
          rcases hk with rfl | rfl | rfl | rfl | rfl | rfl | rfl <;>
            simp [fakeQuestions, sysEntry, askedFlag, requiredFlag, h1, h2, h3, h4]

/-! ## Claims -/

/-- Claim C3 (confirmed): a reconciliation request that fails (invalid
id, incomplete selection in strict mode — indeed any non-success
response) alters no row's position or category and persists no
per-entity audit record: the state after the call is exactly the state
before it. -/
theorem C3_theorem (dbC dbQ : List Orderable) (dbI : List Item)
    (cats : List Nat) (category : Nat) (body : ReqBody) :
    ((reorder_categories dbC body).resp ≠ .ok →
      (reorder_categories dbC body).db = dbC ∧
      (reorder_categories dbC body).logs = []) ∧
    ((reorder_questions dbQ body).resp ≠ .ok →
      (reorder_questions dbQ body).db = dbQ ∧
      (reorder_questions dbQ body).logs = [] ∧
      (reorder_questions dbQ body).sqo = none ∧
      (reorder_questions dbQ body).eventLogs = 0) ∧
    ((reorder_items dbI cats category body).resp ≠ .ok →
      (reorder_items dbI cats category body).db = dbI ∧
      (reorder_items dbI cats category body).logs = []) :=
  ⟨fun h => reorder_categories_err h,
   fun h => reorder_questions_err h,
   fun h => reorder_items_err h⟩

/-- Witness for C3 at a concrete invalid-id request (id "2" does not
resolve in a scope whose only row has pk 1 / pk 17 / pk 5). -/
theorem C3_witness :
    ((reorder_categories [⟨1, 0⟩] (.withIds ["2"])).resp ≠ .ok ∧
     (reorder_questions [⟨17, 0⟩] (.withIds ["2"])).resp ≠ .ok ∧
     (reorder_items [⟨5, 0, none⟩] [] 0 (.withIds ["2"])).resp ≠ .ok) ∧
    (reorder_categories [⟨1, 0⟩] (.withIds ["2"])).db = [⟨1, 0⟩] ∧
    (reorder_categories [⟨1, 0⟩] (.withIds ["2"])).logs = [] ∧
    (reorder_questions [⟨17, 0⟩] (.withIds ["2"])).db = [⟨17, 0⟩] ∧
    (reorder_questions [⟨17, 0⟩] (.withIds ["2"])).sqo = none ∧
    (reorder_items [⟨5, 0, none⟩] [] 0 (.withIds ["2"])).db = [⟨5, 0, none⟩] := by
  have h := C3_theorem [⟨1, 0⟩] [⟨17, 0⟩] [⟨5, 0, none⟩] [] 0 (.withIds ["2"])
  refine ⟨⟨by decide, by decide, by decide⟩, ?_, ?_, ?_, ?_, ?_⟩
  · exact (h.1 (by decide)).1
  · exact (h.1 (by decide)).2
  · exact (h.2.1 (by decide)).1
  · exact (h.2.1 (by decide)).2.2.1
  · exact (h.2.2 (by decide)).1

/-- Claim C8 (confirmed): a request whose body is not valid JSON or
lacks the `ids` field gets the fixed client-error body
`expected JSON: \x7bids:[]\x7d` from each of the three reorder
endpoints, with no state change and no audit record. -/
theorem C8_theorem (dbC dbQ : List Orderable) (dbI : List Item)
    (cats : List Nat) (category : Nat) (body : ReqBody)
    (h : body = .malformed ∨ body = .missingIds) :
    reorder_categories dbC body = ⟨dbC, [], .badRequest expectedJson⟩ ∧
    reorder_questions dbQ body = ⟨dbQ, [], none, 0, .badRequest expectedJson⟩ ∧
    reorder_items dbI cats category body = ⟨dbI, [], .badRequest expectedJson⟩ := by
  rcases h with rfl | rfl <;> exact ⟨rfl, rfl, rfl⟩

/-- Witness for C8 at the `not-json` body of Scenario D. -/
theorem C8_witness :
    ((ReqBody.malformed = .malformed ∨ ReqBody.malformed = .missingIds) ∧
     expectedJson = "expected JSON: \x7bids:[]\x7d") ∧
    reorder_categories [⟨1, 0⟩] .malformed = ⟨[⟨1, 0⟩], [], .badRequest expectedJson⟩ ∧
    reorder_questions [⟨17, 0⟩] .malformed = ⟨[⟨17, 0⟩], [], none, 0, .badRequest expectedJson⟩ ∧
    reorder_items [⟨5, 0, none⟩] [] 0 .malformed = ⟨[⟨5, 0, none⟩], [], .badRequest expectedJson⟩ := by
  have h := C8_theorem [⟨1, 0⟩] [⟨17, 0⟩] [⟨5, 0, none⟩] [] 0 .malformed (Or.inl rfl)
  exact ⟨⟨Or.inl rfl, rfl⟩, h.1, h.2.1, h.2.2⟩

/-- Claim C5 (code bug, evidence): at a scope with the single item
pk 5, position 1, no category, reordering with `ids=["5"]` moves the
item to position 0 and writes one audit record — whose `'position'`
payload value is the Item object itself (the loop variable `i`,
modelled `LogVal.itemRef 5`), not the new integer position, so the
event does not carry the new position value the spec promises. -/
theorem C5_bug_eval :
    reorder_items [⟨5, 1, none⟩] [] 0 (.withIds ["5"]) =
      ⟨[⟨5, 0, none⟩], [⟨5, .itemRef 5, none⟩], .ok⟩ ∧
    ∀ n : Nat, LogVal.itemRef 5 ≠ LogVal.intVal n := by
  refine ⟨by decide, ?_⟩
  intro n h
  cases h

/-- Claim C6 (confirmed): on success, `reorder_questions` persists, in
one settings write, the map sending each of the seven fixed system keys
to its index in the submitted list (`-1` when absent), emits exactly
one event-level audit record regardless of how many keys moved, plus
one per-question record for each changed persisted question. -/
theorem C6_theorem (db : List Orderable) (ids : List String)
    (h : (reorder_questions db (.withIds ids)).resp = .ok) :
    (reorder_questions db (.withIds ids)).sqo =
      some (systemKeys.map (fun k =>
        (k, if k ∈ ids then ((pyIndex ids k).getD 0 : Int) else -1))) ∧
    (reorder_questions db (.withIds ids)).eventLogs = 1 ∧
    (reorder_questions db (.withIds ids)).logs =
      (db.filter (fun c => newPos ids c != c.position)).map Orderable.pk := by
  obtain ⟨hlen, hmem, heq⟩ := reorder_questions_ok h
  rw [heq]
  refine ⟨?_, rfl, rfl⟩
  simp only [systemOrderOf, Option.some.injEq]
  apply List.map_congr_left
  intro k _
  cases hpi : pyIndex ids k with
  | none =>
    have hk : k ∉ ids := by
      intro hmemk
      have := pyIndex_isSome_iff.mpr hmemk
      rw [hpi] at this
      exact absurd this (by simp)
    simp [hk]
  | some i =>
    have hk : k ∈ ids := pyIndex_isSome_iff.mp (by simp [hpi])
    simp [hk, hpi]

/-- Witness for C6 at Scenario E: one persisted question pk 17 and
`ids=["attendee_email","17","attendee_name_parts"]`. -/
theorem C6_witness :
    (reorder_questions [⟨17, 0⟩]
      (.withIds ["attendee_email", "17", "attendee_name_parts"])).resp = .ok ∧
    (reorder_questions [⟨17, 0⟩]
      (.withIds ["attendee_email", "17", "attendee_name_parts"])).sqo =
      some (systemKeys.map (fun k =>
        (k, if k ∈ ["attendee_email", "17", "attendee_name_parts"] then
          ((pyIndex ["attendee_email", "17", "attendee_name_parts"] k).getD 0 : Int)
        else -1))) ∧
    (reorder_questions [⟨17, 0⟩]
      (.withIds ["attendee_email", "17", "attendee_name_parts"])).eventLogs = 1 := by
  have h := C6_theorem [⟨17, 0⟩] ["attendee_email", "17", "attendee_name_parts"] (by decide)
  exact ⟨by decide, h.1, h.2.1⟩

/-- Claim C2 (confirmed, reading "every reconciliation" as every
completed run): a row is saved and an audit record written iff its
computed new position (for items: or its new category) differs from the
stored value; the number of audit records equals the number of rows
that moved, never more; unchanged rows are untouched. -/
theorem C2_theorem (dbC dbQ : List Orderable) (dbI : List Item)
    (cats : List Nat) (category : Nat) (idsC idsQ idsI : List String)
    (hndC : (dbC.map Orderable.pk).Nodup) (hndQ : (dbQ.map Orderable.pk).Nodup)
    (hndI : (dbI.map Item.pk).Nodup) :
    ((reorder_categories dbC (.withIds idsC)).resp = .ok →
      (reorder_categories dbC (.withIds idsC)).db = dbC.map (updPos idsC) ∧
      (reorder_categories dbC (.withIds idsC)).logs =
        (dbC.filter (fun c => newPos idsC c != c.position)).map Orderable.pk ∧
      (reorder_categories dbC (.withIds idsC)).logs.length =
        (dbC.filter (fun c => newPos idsC c != c.position)).length ∧
      (∀ c ∈ dbC, (c.pk ∈ (reorder_categories dbC (.withIds idsC)).logs ↔
        newPos idsC c ≠ c.position))) ∧
    ((reorder_questions dbQ (.withIds idsQ)).resp = .ok →
      (reorder_questions dbQ (.withIds idsQ)).db = dbQ.map (updPos idsQ) ∧
      (reorder_questions dbQ (.withIds idsQ)).logs =
        (dbQ.filter (fun c => newPos idsQ c != c.position)).map Orderable.pk ∧
      (reorder_questions dbQ (.withIds idsQ)).logs.length =
        (dbQ.filter (fun c => newPos idsQ c != c.position)).length ∧
      (∀ c ∈ dbQ, (c.pk ∈ (reorder_questions dbQ (.withIds idsQ)).logs ↔
        newPos idsQ c ≠ c.position))) ∧
    ((reorder_items dbI cats category (.withIds idsI)).resp = .ok →
      (reorder_items dbI cats category (.withIds idsI)).db =
        dbI.map (updItem idsI (if category = 0 then none else some category)) ∧
      (reorder_items dbI cats category (.withIds idsI)).logs =
        (dbI.filter (fun i => matchesIds idsI i.pk &&
          itemMoved idsI (if category = 0 then none else some category) i)).map
          (itemLogOf (if category = 0 then none else some category)) ∧
      (reorder_items dbI cats category (.withIds idsI)).logs.length =
        (dbI.filter (fun i => matchesIds idsI i.pk &&
          itemMoved idsI (if category = 0 then none else some category) i)).length ∧
      (∀ i ∈ dbI, matchesIds idsI i.pk = true →
        ((∃ e ∈ (reorder_items dbI cats category (.withIds idsI)).logs, e.pk = i.pk) ↔
          itemMoved idsI (if category = 0 then none else some category) i = true))) := by
  refine ⟨?_, ?_, ?_⟩
  · intro h
    obtain ⟨hlen, hmem, heq⟩ := reorder_categories_ok h
    rw [heq]
    refine ⟨rfl, rfl, by simp, ?_⟩
    intro c hc
    rw [pk_mem_filter_iff hndC hc]
    simp [bne_iff_ne]
  · intro h
    obtain ⟨hlen, hmem, heq⟩ := reorder_questions_ok h
    rw [heq]
    refine ⟨rfl, rfl, by simp, ?_⟩
    intro c hc
    rw [pk_mem_filter_iff hndQ hc]
    simp [bne_iff_ne]
  · intro h
    obtain ⟨hlen, hmem, heq⟩ := reorder_items_ok h
    rw [heq]
    refine ⟨rfl, rfl, by simp, ?_⟩
    intro i hi hmi
    rw [item_pk_log_iff hndI hi]
    simp [hmi]

/-- Witness for C2 at Scenario A for categories (three rows, order
reversed, three records), plus a one-question and a one-item run. -/
theorem C2_witness :
    (([(⟨1, 0⟩ : Orderable), ⟨2, 1⟩, ⟨3, 2⟩].map Orderable.pk).Nodup ∧
     ([(⟨17, 0⟩ : Orderable)].map Orderable.pk).Nodup ∧
     ([(⟨5, 1, none⟩ : Item)].map Item.pk).Nodup ∧
     (reorder_categories [⟨1, 0⟩, ⟨2, 1⟩, ⟨3, 2⟩] (.withIds ["3", "1", "2"])).resp = .ok) ∧
    (reorder_categories [⟨1, 0⟩, ⟨2, 1⟩, ⟨3, 2⟩] (.withIds ["3", "1", "2"])).logs.length =
      ([(⟨1, 0⟩ : Orderable), ⟨2, 1⟩, ⟨3, 2⟩].filter
        (fun c => newPos ["3", "1", "2"] c != c.position)).length ∧
    (reorder_categories [⟨1, 0⟩, ⟨2, 1⟩, ⟨3, 2⟩] (.withIds ["3", "1", "2"])).db =
      [⟨1, 0⟩, ⟨2, 1⟩, ⟨3, 2⟩].map (updPos ["3", "1", "2"]) := by
  have h := C2_theorem [⟨1, 0⟩, ⟨2, 1⟩, ⟨3, 2⟩] [⟨17, 0⟩] [⟨5, 1, none⟩] [] 0
    ["3", "1", "2"] ["17"] ["5"] (by decide) (by decide) (by decide)
  have h1 := h.1 (by decide)
  exact ⟨⟨by decide, by decide, by decide, by decide⟩, h1.2.2.1, h1.1⟩

/-- Counterexample to claim C1 as stated, at two concrete inputs.
(i) `reorder_questions` with one persisted question (pk 17, position 0)
and `ids=["attendee_email","17"]`: validation passes, the call
succeeds, the question's position becomes 1 — `{1}` is not the
contiguous multiset `{0}`.  (ii) `reorder_categories` with one category
(pk 1, position 5) and `ids=["01"]`: both validation checks pass
(`"01".isdigit()` holds and `id__in` resolves it to pk 1), yet
`ids.index("1")` raises, the transaction rolls back, and the stored
position stays 5 instead of the submitted index 0. -/
theorem C1_counterexample :
    ((reorder_questions [⟨17, 0⟩] (.withIds ["attendee_email", "17"])).resp = .ok ∧
     (reorder_questions [⟨17, 0⟩] (.withIds ["attendee_email", "17"])).db = [⟨17, 1⟩] ∧
     ¬((reorder_questions [⟨17, 0⟩] (.withIds ["attendee_email", "17"])).db.map
        Orderable.position).Perm (List.range 1)) ∧
    ((resolveIn [⟨1, 5⟩] ["01"]).length = (["01"] : List String).length ∧
     (resolveIn [⟨1, 5⟩] ["01"]).length = ([(⟨1, 5⟩ : Orderable)]).length ∧
     (reorder_categories [⟨1, 5⟩] (.withIds ["01"])).resp = .serverError ∧
     (reorder_categories [⟨1, 5⟩] (.withIds ["01"])).db = [⟨1, 5⟩]) := by
  decide

/-- Claim C1 (corrected): for a strict reconciliation that passes
validation **and completes successfully** (equivalently, each row's
canonical decimal id string occurs in the submitted list, which rules
out the uncaught `ValueError`), every persisted row's stored position
equals the index of its id in the submitted list; for
`reorder_categories` — where the submitted list consists exactly of the
scope's ids — the positions are the contiguous multiset `{0,...,n-1}`
matching the submitted order, while for the persisted-question part of
`reorder_questions` the positions are indices into the full submitted
list (interleaved system keys included) and need not be contiguous. -/
theorem C1_amended (dbC dbQ : List Orderable) (idsC idsQ : List String)
    (hndC : (dbC.map Orderable.pk).Nodup) (hndQ : (dbQ.map Orderable.pk).Nodup) :
    ((reorder_categories dbC (.withIds idsC)).resp = .ok →
      (∀ c ∈ (reorder_categories dbC (.withIds idsC)).db,
        pyIndex idsC (natToStr c.pk) = some c.position) ∧
      ((reorder_categories dbC (.withIds idsC)).db.map Orderable.position).Perm
        (List.range (reorder_categories dbC (.withIds idsC)).db.length)) ∧
    ((reorder_questions dbQ (.withIds idsQ)).resp = .ok →
      ∀ c ∈ (reorder_questions dbQ (.withIds idsQ)).db,
        pyIndex idsQ (natToStr c.pk) = some c.position) := by
  constructor
  · intro h
    obtain ⟨hlen, hmem, heq⟩ := reorder_categories_ok h
    rw [heq]
    constructor
    · intro c hc
      obtain ⟨c0, hc0, rfl⟩ := List.mem_map.mp hc
      obtain ⟨i, hi⟩ := Option.isSome_iff_exists.mp (pyIndex_isSome_iff.mpr (hmem c0 hc0))
      simp [updPos, newPos, hi]
    · have hcomp : (dbC.map (updPos idsC)).map Orderable.position =
          dbC.map (fun c => newPos idsC c) := by
        rw [List.map_map]
        rfl
      simp only [hcomp, List.length_map]
      exact positions_perm hndC hlen hmem
  · intro h
    obtain ⟨hlen, hmem, heq⟩ := reorder_questions_ok h
    rw [heq]
    intro c hc
    obtain ⟨c0, hc0, rfl⟩ := List.mem_map.mp hc
    obtain ⟨i, hi⟩ := Option.isSome_iff_exists.mp (pyIndex_isSome_iff.mpr (hmem c0 hc0))
    simp [updPos, newPos, hi]

/-- Witness for the amended C1: Scenario A for categories (three rows,
submitted in reversed order) and the system-key-interleaved questions
run of Scenario E. -/
theorem C1_witness :
    (([(⟨1, 0⟩ : Orderable), ⟨2, 1⟩, ⟨3, 2⟩].map Orderable.pk).Nodup ∧
     ([(⟨17, 0⟩ : Orderable)].map Orderable.pk).Nodup ∧
     (reorder_categories [⟨1, 0⟩, ⟨2, 1⟩, ⟨3, 2⟩] (.withIds ["3", "1", "2"])).resp = .ok ∧
     (reorder_questions [⟨17, 0⟩] (.withIds ["attendee_email", "17"])).resp = .ok) ∧
    ((reorder_categories [⟨1, 0⟩, ⟨2, 1⟩, ⟨3, 2⟩] (.withIds ["3", "1", "2"])).db.map
      Orderable.position).Perm
      (List.range (reorder_categories [⟨1, 0⟩, ⟨2, 1⟩, ⟨3, 2⟩]
        (.withIds ["3", "1", "2"])).db.length) ∧
    (∀ c ∈ (reorder_questions [⟨17, 0⟩] (.withIds ["attendee_email", "17"])).db,
      pyIndex ["attendee_email", "17"] (natToStr c.pk) = some c.position) := by
  have h := C1_amended [⟨1, 0⟩, ⟨2, 1⟩, ⟨3, 2⟩] [⟨17, 0⟩] ["3", "1", "2"]
    ["attendee_email", "17"] (by decide) (by decide)
  exact ⟨⟨by decide, by decide, by decide, by decide⟩, (h.1 (by decide)).2, h.2 (by decide)⟩

/-- Counterexample to claim C4 as stated (Scenario C with A = "1"):
submitting the duplicate list `["1","1"]` for a scope whose only
category has pk 1 fails with the **invalid-id** message of the first
check (`len(input_categories) != len(ids)`), not the
incomplete-selection message the claim assigns to duplicates — and
with zero changes. -/
theorem C4_counterexample :
    reorder_categories [⟨1, 0⟩] (.withIds ["1", "1"]) =
      ⟨[⟨1, 0⟩], [], .notFound invalidIdsMsg⟩ ∧
    invalidIdsMsg ≠ notAllMsg := by
  decide

/-- Claim C4 (corrected): strict reconciliation rejects, with no
changes, every submitted list that does not resolve one-to-one onto the
scope's universe, but the classification is the opposite of the claim
for duplicates: a duplicated id string — like any unresolvable id —
trips the first check and yields the "invalid ids" failure, while only
a list of injectively-resolving ids that misses part of the universe
yields the "incomplete selection" failure.  The same holds for the
digit ids of `reorder_questions`. -/
theorem C4_amended (db dbQ : List Orderable) (ids idsQ : List String)
    (hnd : (db.map Orderable.pk).Nodup) (hndQ : (dbQ.map Orderable.pk).Nodup) :
    (¬ids.Nodup →
      reorder_categories db (.withIds ids) = ⟨db, [], .notFound invalidIdsMsg⟩) ∧
    ((∃ s ∈ ids, resolvesId db s = false) →
      reorder_categories db (.withIds ids) = ⟨db, [], .notFound invalidIdsMsg⟩) ∧
    ((∀ s ∈ ids, resolvesId db s = true) → (ids.map strToNat).Nodup →
      (∃ c ∈ db, matchesIds ids c.pk = false) →
      reorder_categories db (.withIds ids) = ⟨db, [], .notFound notAllMsg⟩) ∧
    (¬(idsQ.filter pyIsDigit).Nodup →
      reorder_questions dbQ (.withIds idsQ) = ⟨dbQ, [], none, 0, .notFound invalidIdsMsg⟩) := by
  refine ⟨?_, ?_, ?_, ?_⟩
  · intro h
    have hlt := @resolve_lt_of_not_nodup db ids hnd h
    have h1 : (resolveIn db ids).length ≠ ids.length := Nat.ne_of_lt hlt
    simp [reorder_categories, h1]
  · rintro ⟨s, hs, hres⟩
    have hlt := resolve_lt_of_unresolved hnd hs hres
    have h1 : (resolveIn db ids).length ≠ ids.length := Nat.ne_of_lt hlt
    simp [reorder_categories, h1]
  · rintro hres hvnd ⟨c, hc, hm⟩
    have h1 : (resolveIn db ids).length = ids.length := resolve_eq_of_exact hnd hres hvnd
    have hlt := resolve_lt_db_of_missing hc hm
    have h2 : (resolveIn db ids).length ≠ db.length := Nat.ne_of_lt hlt
    have h2' : ids.length ≠ db.length := by rw [← h1]; exact h2
    simp [reorder_categories, h1, h2, h2']
  · intro h
    have hlt := @resolve_lt_of_not_nodup dbQ (idsQ.filter pyIsDigit) hndQ h
    have h1 : (resolveIn dbQ (idsQ.filter pyIsDigit)).length ≠ (idsQ.filter pyIsDigit).length :=
      Nat.ne_of_lt hlt
    simp [reorder_questions, h1]

/-- Witness for the amended C4: a two-category scope {1, 2}; the
duplicate list `["1","1"]` and the unknown id `["3","1"]` yield the
invalid-id failure, the injective-but-incomplete list `["1"]` yields
the incomplete-selection failure; a duplicated digit question id fails
likewise. -/
theorem C4_witness :
    ((¬(["1", "1"] : List String).Nodup ∧
      (∃ s ∈ (["3", "1"] : List String), resolvesId [⟨1, 0⟩, ⟨2, 1⟩] s = false) ∧
      (∀ s ∈ (["1"] : List String), resolvesId [⟨1, 0⟩, ⟨2, 1⟩] s = true) ∧
      ((["1"] : List String).map strToNat).Nodup ∧
      (∃ c ∈ [(⟨1, 0⟩ : Orderable), ⟨2, 1⟩], matchesIds ["1"] c.pk = false) ∧
      ¬((["17", "17"] : List String).filter pyIsDigit).Nodup) ∧
    reorder_categories [⟨1, 0⟩, ⟨2, 1⟩] (.withIds ["1", "1"]) =
      ⟨[⟨1, 0⟩, ⟨2, 1⟩], [], .notFound invalidIdsMsg⟩ ∧
    reorder_categories [⟨1, 0⟩, ⟨2, 1⟩] (.withIds ["3", "1"]) =
      ⟨[⟨1, 0⟩, ⟨2, 1⟩], [], .notFound invalidIdsMsg⟩ ∧
    reorder_categories [⟨1, 0⟩, ⟨2, 1⟩] (.withIds ["1"]) =
      ⟨[⟨1, 0⟩, ⟨2, 1⟩], [], .notFound notAllMsg⟩ ∧
    reorder_questions [⟨17, 0⟩] (.withIds ["17", "17"]) =
      ⟨[⟨17, 0⟩], [], none, 0, .notFound invalidIdsMsg⟩) := by
  have hdup := C4_amended [⟨1, 0⟩, ⟨2, 1⟩] [⟨17, 0⟩] ["1", "1"] ["17", "17"]
    (by decide) (by decide)
  have hunk := C4_amended [⟨1, 0⟩, ⟨2, 1⟩] [⟨17, 0⟩] ["3", "1"] ["17", "17"]
    (by decide) (by decide)
  have hmiss := C4_amended [⟨1, 0⟩, ⟨2, 1⟩] [⟨17, 0⟩] ["1"] ["17", "17"]
    (by decide) (by decide)
  refine ⟨⟨by decide, by decide, by decide, by decide, by decide, by decide⟩, ?_, ?_, ?_, ?_⟩
  · exact hdup.1 (by decide)
  · exact hunk.2.1 (by decide)
  · exact hmiss.2.2.1 (by decide) (by decide) (by decide)
  · exact hdup.2.2.2 (by decide)

/-- Claim C10 (confirmed): after any single-step move on an existing
entity, every row of the resulting scope holds exactly its list index
as position — the loop renumbers unconditionally, restoring the
contiguity invariant even from gapped or duplicated positions; and
consequently the call leaves the audit log empty only if the scope's
positions already were a permutation of `{0,...,n-1}`. -/
theorem C10_theorem (dbC : List Orderable) (dbI : List Item) (pkC pkI : Nat)
    (upC upI : Bool) :
    (∀ db2 logs, category_move dbC pkC upC = some (db2, logs) →
      (∀ (j : Nat) (e : Orderable), db2.get? j = some e → e.position = j) ∧
      (logs = [] → (dbC.map Orderable.position).Perm (List.range dbC.length))) ∧
    (∀ it db2 logs, dbI.find? (fun i => i.pk == pkI) = some it →
      item_move dbI pkI upI = some (db2, logs) →
      (∀ (j : Nat) (e : Item), db2.get? j = some e → e.position = j) ∧
      (logs = [] →
        ((dbI.filter (fun i => i.category == it.category)).map Item.position).Perm
          (List.range (dbI.filter (fun i => i.category == it.category)).length))) := by
  constructor
  · intro db2 logs h
    by_cases hany : dbC.any (fun c => c.pk == pkC) = true
    case neg => simp [category_move, hany] at h
    simp only [category_move, hany, if_true, Option.some.injEq] at h
    constructor
    · intro j e hj
      have hfst : (moveCore Orderable.position
          (fun c p => { c with position := p }) Orderable.pk dbC pkC upC).1 = db2 := by
        rw [h]
      rw [← hfst] at hj
      exact moveCore_fst_get? (fun e p => rfl) dbC pkC upC j e hj
    · intro hlogs
      have hsnd : (moveCore Orderable.position
          (fun c p => { c with position := p }) Orderable.pk dbC pkC upC).2 = [] := by
        rw [h, hlogs]
      exact moveCore_snd_nil_perm dbC pkC upC hsnd
  · intro it db2 logs hfind h
    simp only [item_move, hfind, Option.some.injEq] at h
    constructor
    · intro j e hj
      have hfst : (moveCore Item.position (fun i p => { i with position := p })
          Item.pk (dbI.filter (fun i => i.category == it.category)) pkI upI).1 = db2 := by
        rw [h]
      rw [← hfst] at hj
      exact moveCore_fst_get? (fun e p => rfl) _ pkI upI j e hj
    · intro hlogs
      have hsnd : (moveCore Item.position (fun i p => { i with position := p })
          Item.pk (dbI.filter (fun i => i.category == it.category)) pkI upI).2 = [] := by
        rw [h, hlogs]
      exact moveCore_snd_nil_perm _ pkI upI hsnd

/-- Witness for C10: a contiguous two-row scope moved at the boundary
(no-op, empty log, hence the pre-state positions are a permutation of
`range 2`). -/
theorem C10_witness :
    (category_move [⟨1, 0⟩, ⟨2, 1⟩] 1 true = some ([⟨1, 0⟩, ⟨2, 1⟩], []) ∧
     ([(⟨5, 0, some 1⟩ : Item), ⟨6, 1, some 1⟩].find? (fun i => i.pk == 5) =
       some ⟨5, 0, some 1⟩ ∧
     item_move [⟨5, 0, some 1⟩, ⟨6, 1, some 1⟩] 5 true =
       some ([⟨5, 0, some 1⟩, ⟨6, 1, some 1⟩], []))) ∧
    (([(⟨1, 0⟩ : Orderable), ⟨2, 1⟩].map Orderable.position).Perm (List.range 2) ∧
     (([(⟨5, 0, some 1⟩ : Item), ⟨6, 1, some 1⟩].filter
        (fun i => i.category == (some 1 : Option Nat))).map Item.position).Perm
       (List.range ([(⟨5, 0, some 1⟩ : Item), ⟨6, 1, some 1⟩].filter
        (fun i => i.category == (some 1 : Option Nat))).length)) := by
  have h := C10_theorem [⟨1, 0⟩, ⟨2, 1⟩] [⟨5, 0, some 1⟩, ⟨6, 1, some 1⟩] 1 5 true true
  have hC := h.1 [⟨1, 0⟩, ⟨2, 1⟩] [] (by decide)
  have hI := h.2 ⟨5, 0, some 1⟩ [⟨5, 0, some 1⟩, ⟨6, 1, some 1⟩] [] (by decide) (by decide)
  exact ⟨⟨by decide, by decide, by decide⟩, hC.2 rfl, hI.2 rfl⟩

/-- Counterexample to claim C7 as stated: a scope whose single category
sits at position 5 (a gap state, which deletions can produce).  Moving
the first (and only) entity up is **not** a silent no-op: the
renumbering loop runs anyway, rewrites the position to 0 and emits one
audit record. -/
theorem C7_counterexample :
    category_move [⟨1, 5⟩] 1 true = some ([⟨1, 0⟩], [1]) ∧
    ((⟨1, 0⟩ : Orderable) ≠ ⟨1, 5⟩ ∧ ([1] : List Nat) ≠ []) := by
  refine ⟨by decide, by decide, by decide⟩

/-- Claim C7 (corrected): **provided the scope's stored positions are
already the contiguous sequence `0..n-1`** (in scope order), the
single-step move is a silent no-op on the first entity moved up and on
the last entity moved down — no position changes, no audit record —
and an interior move changes exactly two entities, the moved one and
its swapped neighbour, in that log order.  (Without the contiguity
precondition the boundary move rewrites positions, see the
counterexample; `item_move` is stated on a single-category scope, the
only rows its loop touches.) -/
theorem C7_amended (dbC : List Orderable) (dbI : List Item) (c : Option Nat)
    (hposC : ∀ j : Fin dbC.length, (dbC.get j).position = (j : Nat))
    (hndC : (dbC.map Orderable.pk).Nodup)
    (hposI : ∀ j : Fin dbI.length, (dbI.get j).position = (j : Nat))
    (hndI : (dbI.map Item.pk).Nodup)
    (hcat : ∀ i ∈ dbI, i.category = c) :
    ((∀ e0, dbC.get? 0 = some e0 → category_move dbC e0.pk true = some (dbC, [])) ∧
     (∀ eL, dbC.get? (dbC.length - 1) = some eL →
       category_move dbC eL.pk false = some (dbC, [])) ∧
     (∀ (i : Nat) (a b : Orderable), dbC.get? i = some a → dbC.get? (i + 1) = some b →
       (∃ db2, category_move dbC b.pk true = some (db2, [b.pk, a.pk])) ∧
       (∃ db2, category_move dbC a.pk false = some (db2, [b.pk, a.pk])))) ∧
    ((∀ e0, dbI.get? 0 = some e0 → item_move dbI e0.pk true = some (dbI, [])) ∧
     (∀ eL, dbI.get? (dbI.length - 1) = some eL →
       item_move dbI eL.pk false = some (dbI, [])) ∧
     (∀ (i : Nat) (a b : Item), dbI.get? i = some a → dbI.get? (i + 1) = some b →
       (∃ db2, item_move dbI b.pk true = some (db2, [b.pk, a.pk])) ∧
       (∃ db2, item_move dbI a.pk false = some (db2, [b.pk, a.pk])))) := by
  have hposC' : ∀ (j : Nat) (e : Orderable), dbC.get? j = some e → e.position = j :=
    get?_pos_of_fin Orderable.position dbC hposC
  have hposI' : ∀ (j : Nat) (e : Item), dbI.get? j = some e → e.position = j :=
    get?_pos_of_fin Item.position dbI hposI
  have hanyC : ∀ {e : Orderable}, e ∈ dbC → dbC.any (fun x => x.pk == e.pk) = true := by
    intro e he
    exact List.any_eq_true.mpr ⟨e, he, by simp⟩
  have hfilterI : dbI.filter (fun i => i.category == c) = dbI := by
    rw [List.filter_eq_self]
    intro i hi
    simp [hcat i hi]
  have hfindI : ∀ {e : Item} {j : Nat}, dbI.get? j = some e →
      dbI.find? (fun i => i.pk == e.pk) = some e := by
    intro e j hj
    obtain ⟨hlt, hget⟩ := List.get?_eq_some.mp hj
    have hfind := find?_nodup_pk Item.pk hlt hndI
    rw [hget] at hfind
    exact hfind
  refine ⟨⟨?_, ?_, ?_⟩, ?_, ?_, ?_⟩
  · intro e0 h0
    have hmem : e0 ∈ dbC := List.get?_mem h0
    rw [category_move, if_pos (hanyC hmem)]
    rw [moveCore_boundary_up dbC hposC' hndC h0]
  · intro eL hL
    have hmem : eL ∈ dbC := List.get?_mem hL
    rw [category_move, if_pos (hanyC hmem)]
    rw [moveCore_boundary_down dbC hposC' hndC hL]
  · intro i a b ha hb
    have hmema : a ∈ dbC := List.get?_mem ha
    have hmemb : b ∈ dbC := List.get?_mem hb
    constructor
    · refine ⟨(moveCore Orderable.position (fun x p => { x with position := p })
        Orderable.pk dbC b.pk true).1, ?_⟩
      rw [category_move, if_pos (hanyC hmemb), Option.some.injEq]
      rw [← moveCore_interior_up dbC hposC' hndC ha hb]
    · refine ⟨(moveCore Orderable.position (fun x p => { x with position := p })
        Orderable.pk dbC a.pk false).1, ?_⟩
      rw [category_move, if_pos (hanyC hmema), Option.some.injEq]
      rw [← moveCore_interior_down dbC hposC' hndC ha hb]
  · intro e0 h0
    have hc0 : e0.category = c := hcat e0 (List.get?_mem h0)
    simp only [item_move, hfindI h0]
    rw [hc0, hfilterI]
    rw [moveCore_boundary_up dbI hposI' hndI h0]
  · intro eL hL
    have hcL : eL.category = c := hcat eL (List.get?_mem hL)
    simp only [item_move, hfindI hL]
    rw [hcL, hfilterI]
    rw [moveCore_boundary_down dbI hposI' hndI hL]
  · intro i a b ha hb
    constructor
    · refine ⟨(moveCore Item.position (fun x p => { x with position := p })
        Item.pk dbI b.pk true).1, ?_⟩
      have hcb : b.category = c := hcat b (List.get?_mem hb)
      simp only [item_move, hfindI hb]
      rw [hcb, hfilterI, Option.some.injEq]
      rw [← moveCore_interior_up dbI hposI' hndI ha hb]
    · refine ⟨(moveCore Item.position (fun x p => { x with position := p })
        Item.pk dbI a.pk false).1, ?_⟩
      have hca : a.category = c := hcat a (List.get?_mem ha)
      simp only [item_move, hfindI ha]
      rw [hca, hfilterI, Option.some.injEq]
      rw [← moveCore_interior_down dbI hposI' hndI ha hb]

/-- Witness for the amended C7: a contiguous three-category scope and a
contiguous two-item single-category scope, exercising the boundary
no-ops and one interior move. -/
theorem C7_witness :
    ((∀ j : Fin ([(⟨1, 0⟩ : Orderable), ⟨2, 1⟩, ⟨3, 2⟩] : List Orderable).length,
        (([(⟨1, 0⟩ : Orderable), ⟨2, 1⟩, ⟨3, 2⟩] : List Orderable).get j).position = (j : Nat)) ∧
     (∀ j : Fin ([(⟨5, 0, some 1⟩ : Item), ⟨6, 1, some 1⟩] : List Item).length,
        (([(⟨5, 0, some 1⟩ : Item), ⟨6, 1, some 1⟩] : List Item).get j).position = (j : Nat)) ∧
     (∀ i ∈ ([(⟨5, 0, some 1⟩ : Item), ⟨6, 1, some 1⟩] : List Item),
        i.category = (some 1 : Option Nat))) ∧
    category_move [⟨1, 0⟩, ⟨2, 1⟩, ⟨3, 2⟩] 1 true = some ([⟨1, 0⟩, ⟨2, 1⟩, ⟨3, 2⟩], []) ∧
    category_move [⟨1, 0⟩, ⟨2, 1⟩, ⟨3, 2⟩] 3 false = some ([⟨1, 0⟩, ⟨2, 1⟩, ⟨3, 2⟩], []) ∧
    (∃ db2, category_move [⟨1, 0⟩, ⟨2, 1⟩, ⟨3, 2⟩] 3 true = some (db2, [3, 2])) ∧
    item_move [⟨5, 0, some 1⟩, ⟨6, 1, some 1⟩] 5 true =
      some ([⟨5, 0, some 1⟩, ⟨6, 1, some 1⟩], []) := by
  have h := C7_amended [⟨1, 0⟩, ⟨2, 1⟩, ⟨3, 2⟩] [⟨5, 0, some 1⟩, ⟨6, 1, some 1⟩] (some 1)
    (by decide) (by decide) (by decide) (by decide) (by decide)
  refine ⟨⟨by decide, by decide, by decide⟩, ?_, ?_, ?_, ?_⟩
  · exact h.1.1 ⟨1, 0⟩ (by decide)
  · exact h.1.2.1 ⟨3, 2⟩ (by decide)
  · exact (h.1.2.2 1 ⟨2, 1⟩ ⟨3, 2⟩ (by decide) (by decide)).1
  · exact h.2.1 ⟨5, 0, some 1⟩ (by decide)

/-- Claim C9 (confirmed): the question display list is the virtual
system-field entries concatenated with the persisted questions, stably
sorted by position ascending: it is sorted (so every entry precedes
every entry of strictly greater position, regardless of origin), it is
a permutation of the concatenation, ties keep the concatenation's
relative order (the filter at each position value is preserved), a
virtual entry for key `k` appears iff the corresponding asked-flag is
enabled, and its position defaults to 0 when the stored
`system_question_order` map has no entry for `k`. -/
theorem C9_theorem (s : EventSettings) (qs : List Orderable) :
    List.Pairwise (fun a b => QEntry.position a ≤ QEntry.position b) (get_context_data s qs) ∧
    (get_context_data s qs).Perm (fakeQuestions s ++ qs.map QEntry.real) ∧
    (∀ p : Int, (get_context_data s qs).filter (fun e => decide (QEntry.position e = p)) =
      (fakeQuestions s ++ qs.map QEntry.real).filter
        (fun e => decide (QEntry.position e = p))) ∧
    (∀ k ∈ systemKeys, (sysEntry s k ∈ get_context_data s qs ↔ askedFlag s k = true)) ∧
    (∀ k : String, s.system_question_order.lookup k = none → sqoGet s k = 0) := by
  refine ⟨?_, ?_, ?_, ?_, ?_⟩
  · exact sortByKey_pairwise QEntry.position _
  · exact sortByKey_perm QEntry.position _
  · intro p
    exact sortByKey_filter QEntry.position p _
  · intro k hk
    rw [get_context_data]
    rw [(sortByKey_perm QEntry.position (fakeQuestions s ++ qs.map QEntry.real)).mem_iff]
    rw [List.mem_append]
    have hnotreal : sysEntry s k ∉ qs.map QEntry.real := by
      intro hmem
      obtain ⟨q, _, hq⟩ := List.mem_map.mp hmem
      simp [sysEntry] at hq
    constructor
    · rintro (hf | hr)
      · exact (sysEntry_mem_fakes s k hk).mp hf
      · exact absurd hr hnotreal
    · intro hflag
      exact Or.inl ((sysEntry_mem_fakes s k hk).mpr hflag)
  · intro k h
    simp [sqoGet, h]

/-- Witness for C9 at the P5-style configuration: attendee-email
enabled at position 0, attendee-name enabled at position 2, two
persisted questions at positions 1 and 3. -/
theorem C9_witness :
    ("attendee_email" ∈ systemKeys ∧
     (⟨true, false, true, true, false, false, false, false,
        [("attendee_email", 0), ("attendee_name_parts", 2)]⟩ :
        EventSettings).system_question_order.lookup "city" = none) ∧
    (sysEntry ⟨true, false, true, true, false, false, false, false,
        [("attendee_email", 0), ("attendee_name_parts", 2)]⟩ "attendee_email" ∈
      get_context_data ⟨true, false, true, true, false, false, false, false,
        [("attendee_email", 0), ("attendee_name_parts", 2)]⟩ [⟨10, 1⟩, ⟨11, 3⟩] ↔
      askedFlag ⟨true, false, true, true, false, false, false, false,
        [("attendee_email", 0), ("attendee_name_parts", 2)]⟩ "attendee_email" = true) ∧
    sqoGet ⟨true, false, true, true, false, false, false, false,
        [("attendee_email", 0), ("attendee_name_parts", 2)]⟩ "city" = 0 ∧
    List.Pairwise (fun a b => QEntry.position a ≤ QEntry.position b)
      (get_context_data ⟨true, false, true, true, false, false, false, false,
        [("attendee_email", 0), ("attendee_name_parts", 2)]⟩ [⟨10, 1⟩, ⟨11, 3⟩]) := by
  have h := C9_theorem ⟨true, false, true, true, false, false, false, false,
    [("attendee_email", 0), ("attendee_name_parts", 2)]⟩ [⟨10, 1⟩, ⟨11, 3⟩]
  exact ⟨⟨by decide, by decide⟩, h.2.2.2.1 "attendee_email" (by decide),
    h.2.2.2.2 "city" (by decide), h.1⟩

end ItemViews
